import Mathlib

/-!
Verification development for the LemLib v0.4 path-file codec of path.jerryio
(`src/format/LemLibFormatV0_4.tsx`): the decoder `recoverPathFileData` and the
encoder `exportPathFile`, together with the geometry and unit-conversion
helpers they use.

Numbers: the source works on JS IEEE float64 values whose uses here (decimal
parsing, 3-decimal rounding, linear unit conversion, interpolation) are exact
rational computations.  We embed them as the exact-fraction type `Q` (an
integer numerator/denominator pair, kept unreduced so that every operation is
plain integer arithmetic), with `Q.val : Q → ℚ` giving the represented value.
-/

namespace LemLibV04

instance {ε α : Type} [DecidableEq ε] [DecidableEq α] : DecidableEq (Except ε α) := fun x y =>
  match x, y with
  | .ok a, .ok b =>
    if h : a = b then .isTrue (h ▸ rfl) else .isFalse (fun he => h (Except.ok.inj he))
  | .error a, .error b =>
    if h : a = b then .isTrue (h ▸ rfl) else .isFalse (fun he => h (Except.error.inj he))
  | .ok _, .error _ => .isFalse (fun he => Except.noConfusion he)
  | .error _, .ok _ => .isFalse (fun he => Except.noConfusion he)

/-- Exact-fraction model of a JS number: `num / den`.  Every constructor in the
development keeps `den` positive; fractions are not reduced. -/
structure Q where
  num : ℤ
  den : ℤ
deriving DecidableEq

/-- The rational value represented by a `Q`. -/
def Q.val (a : Q) : ℚ := (a.num : ℚ) / (a.den : ℚ)

def Q.ofInt (n : ℤ) : Q := ⟨n, 1⟩

def Q.neg (a : Q) : Q := ⟨-a.num, a.den⟩

def Q.add (a b : Q) : Q := ⟨a.num * b.den + b.num * a.den, a.den * b.den⟩

def Q.sub (a b : Q) : Q := ⟨a.num * b.den - b.num * a.den, a.den * b.den⟩

def Q.mul (a b : Q) : Q := ⟨a.num * b.num, a.den * b.den⟩

/-- Division, normalising the sign into the numerator so that the denominator
stays nonnegative.  (Division by zero yields a zero denominator, as meaningless
here as the `Infinity` the runtime would produce; no claim exercises it.) -/
def Q.div (a b : Q) : Q :=
  if 0 ≤ b.num then ⟨a.num * b.den, a.den * b.num⟩
  else ⟨-(a.num * b.den), -(a.den * b.num)⟩

/-- Value order on fractions with positive denominators (cross multiplication). -/
def Q.leB (a b : Q) : Bool := a.num * b.den ≤ b.num * a.den

/-- Value equality on fractions with positive denominators; models the JS `===`
comparison of two (non-NaN) numbers. -/
def Q.beq (a b : Q) : Bool := a.num * b.den == b.num * a.den

/-- `Math.min` on values (returns one of its arguments). -/
def Q.minQ (a b : Q) : Q := if Q.leB a b then a else b

/-- `Math.max` on values (returns one of its arguments). -/
def Q.maxQ (a b : Q) : Q := if Q.leB b a then a else b

/-- Modelled from the spec: `clamp` from `src/app/Util` (not under `src/`),
clamping a value into `[lo, hi]`; the near-duplicate in-repo variant writes it
as `Math.max(Math.min(v, hi), lo)`. -/
def clamp (v lo hi : Q) : Q := Q.maxQ (Q.minQ v hi) lo

/-- `⌊x + 1/2⌋` computed away from zero: the integer nearest to `a`, ties
rounded away from zero (round-half-away-from-zero). -/
def Q.roundHalfAZ (a : Q) : ℤ :=
  if 0 ≤ a.num then (2 * a.num + a.den).fdiv (2 * a.den)
  else -((2 * (-a.num) + a.den).fdiv (2 * a.den))

/-- Modelled from the spec (§3/§4.3): the codec's 3-decimal rounding
`parseFloat(x.toFixed(3))` — round-half-away-from-zero at the third decimal.
The result is always represented over denominator 1000. -/
def round3 (a : Q) : Q := ⟨Q.roundHalfAZ (a.mul (Q.ofInt 1000)), 1000⟩

/-! ### JS string primitives (modelled): split, number parsing, formatting -/

/-- Modelled from the spec: JS `String.prototype.split("\n")` on the character
list; adjacent separators produce empty fields and the result is never empty. -/
def splitLines : List Char → List (List Char)
  | [] => [[]]
  | c :: rest =>
    if c = '\n' then [] :: splitLines rest
    else
      match splitLines rest with
      | l :: ls => (c :: l) :: ls
      | [] => [[c]]

/-- Modelled from the spec: JS `String.prototype.split(", ")` — leftmost-first
scan for the two-character separator. -/
def splitCommaSpace : List Char → List (List Char)
  | [] => [[]]
  | [c] => [[c]]
  | c :: d :: rest =>
    if c = ',' ∧ d = ' ' then [] :: splitCommaSpace rest
    else
      match splitCommaSpace (d :: rest) with
      | l :: ls => (c :: l) :: ls
      | [] => [[c]]

def isWs (c : Char) : Bool := c == ' ' || c == '\t' || c == '\r'

def trimWs (cs : List Char) : List Char :=
  ((cs.dropWhile isWs).reverse.dropWhile isWs).reverse

def isDigitCh (c : Char) : Bool := 48 ≤ c.toNat && c.toNat ≤ 57

def digitVal (c : Char) : ℕ := c.toNat - 48

/-- Decimal value of a big-endian digit string. -/
def digitsVal (cs : List Char) : ℕ := cs.foldl (fun a c => 10 * a + digitVal c) 0

/-- Unsigned part of JS number parsing: digits, optionally a decimal point and
fraction digits; at least one digit overall.  Exponents, hex and `Infinity`
are not used by the format and are not modelled. -/
def parseUnsigned (cs : List Char) : Option Q :=
  let ip := cs.takeWhile isDigitCh
  let rest := cs.dropWhile isDigitCh
  match rest with
  | [] => if ip.isEmpty then none else some ⟨(digitsVal ip : ℤ), 1⟩
  | '.' :: rest2 =>
    let fp := rest2.takeWhile isDigitCh
    if (rest2.dropWhile isDigitCh).isEmpty then
      if ip.isEmpty && fp.isEmpty then none
      else some ⟨((digitsVal ip * 10 ^ fp.length + digitsVal fp : ℕ) : ℤ), ((10 ^ fp.length : ℕ) : ℤ)⟩
    else none
  | _ => none

/-- Modelled from the spec: the runtime `Number(str)` conversion used by the
decoder, for the plain decimal numerals of the format: optional surrounding
whitespace, optional sign, integer and fraction digits.  The empty (or
all-whitespace) string converts to `0` as in JS; `none` models `NaN`. -/
def jsNumber (cs : List Char) : Option Q :=
  match trimWs cs with
  | [] => some ⟨0, 1⟩
  | c :: rest =>
    if c = '-' then (parseUnsigned rest).map Q.neg
    else if c = '+' then parseUnsigned rest
    else parseUnsigned (c :: rest)

/-- The decimal digit character for `d < 10`. -/
def digitCh : ℕ → Char
  | 0 => '0' | 1 => '1' | 2 => '2' | 3 => '3' | 4 => '4'
  | 5 => '5' | 6 => '6' | 7 => '7' | 8 => '8' | _ => '9'

/-- Little-endian decimal digits of `n`, with explicit fuel for structural
recursion. -/
def natDigitsAux : ℕ → ℕ → List ℕ
  | 0, _ => []
  | _ + 1, 0 => []
  | fuel + 1, n + 1 => ((n + 1) % 10) :: natDigitsAux fuel ((n + 1) / 10)

/-- Big-endian decimal digit characters of a natural number. -/
def natToChars (n : ℕ) : List Char :=
  if n = 0 then ['0'] else ((natDigitsAux n n).map digitCh).reverse

def digit3 (m : ℕ) : List Char := [digitCh (m / 100), digitCh (m / 10 % 10), digitCh (m % 10)]

def fmtN (n : ℕ) : List Char := natToChars (n / 1000) ++ '.' :: digit3 (n % 1000)

/-- Decimal rendering of `m/1000` with three digits after the point. -/
def fmt3 (m : ℤ) : List Char := if m < 0 then '-' :: fmtN m.natAbs else fmtN m.toNat

/-- Modelled from the spec (§6): the runtime number-to-string conversion used
by the encoder's template strings.  All encoded fields are 3-decimal values;
we render exactly the represented value over denominator 1000 (for any other
fraction the low digits are truncated — never exercised). -/
def fmtQ (q : Q) : List Char := fmt3 ((q.num * 1000).fdiv q.den)

/-! ### Geometry model (`src/math/Path`, not under `src/`; modelled from §3) -/

/-- Modelled from the spec: immutable 2D point. -/
structure Vector where
  x : Q
  y : Q
deriving DecidableEq

def Vector.add (a b : Vector) : Vector := ⟨a.x.add b.x, a.y.add b.y⟩

/-- Componentwise division, as in `controls[0].add(controls[1]).divide(new Vector(2, 2))`. -/
def Vector.divide (a b : Vector) : Vector := ⟨a.x.div b.x, a.y.div b.y⟩

/-- Modelled from the spec: Euclidean distance.  The square root is the
runtime's numeric primitive, passed in as the explicit parameter `sq` (claims
instantiate it on perfect squares, where it is exact). -/
def Vector.distance (sq : Q → Q) (a b : Vector) : Q :=
  sq (((b.x.sub a.x).mul (b.x.sub a.x)).add ((b.y.sub a.y).mul (b.y.sub a.y)))

/-- Modelled from the spec (§3): `a.interpolate(b, d)` is the point at distance
`d` from `a` toward `b` (not necessarily between them). -/
def Vector.interpolate (sq : Q → Q) (a b : Vector) (d : Q) : Vector :=
  let dist := a.distance sq b
  ⟨a.x.add ((b.x.sub a.x).mul (d.div dist)), a.y.add ((b.y.sub a.y).mul (d.div dist))⟩

/-- Modelled from the spec: boundary control point, a point with a heading. -/
structure EndPointControl where
  pos : Vector
  heading : Q
deriving DecidableEq

/-- Modelled from the spec: one spline, `new Spline(first, mid, last)` with
`mid` the interior control points (`[]` for the degenerate 2-control straight
segment, two elements for a cubic).  `first`/`last` are the accessors of the
same names. -/
structure Spline where
  first : EndPointControl
  mid : List Vector
  last : EndPointControl
deriving DecidableEq

/-- The ordered control list `[first, ...mid, last]` of a spline. -/
def Spline.controls (s : Spline) : List Vector := s.first.pos :: s.mid ++ [s.last.pos]

/-- The speed-limit range of `PathConfigImpl` (`minLimit.value = 0`,
`maxLimit.value = 127`, `from = 20`, `to = 100`); the source's `from`/`to`
fields are `fromValue`/`toValue` here (keywords in Lean) and the UI-only
`label`/`step` fields are dropped. -/
structure NumberRange where
  minLimitValue : Q
  maxLimitValue : Q
  fromValue : Q
  toValue : Q
deriving DecidableEq

/-- Defaults of `PathConfigImpl.speedLimit` (source lines 41–47).  The point
density sits at its default of 2, under which the spec-modelled
`convertPathConfigPointDensity` conversion is the identity. -/
def defaultSpeedLimit : NumberRange := ⟨⟨0, 1⟩, ⟨127, 1⟩, ⟨20, 1⟩, ⟨100, 1⟩⟩

/-- Modelled from the spec: a `Path` as the codec sees it — its ordered splines
plus the speed-limit configuration `pc.speedLimit`. -/
structure Path where
  speedLimit : NumberRange
  splines : List Spline
deriving DecidableEq

/-! ### Decoder: `recoverPathFileData` (source lines 133–197) -/

/-- The three throw sites of `recoverPathFileData`.  Note the source has a
single spline-level error (`"unable to parse spline at line " + (i + 1)`),
raised both for malformed lines and for a continuity mismatch. -/
inductive DecodeError
  | missingSentinel
  | invalidMaxSpeed
  | splineError (lineNo : ℕ)
deriving DecidableEq

def sentinelChars : List Char := "endData".toList

/-- Parsing of one spline data line (loop body, lines 182–190): split on
`", "`, require exactly 8 tokens, parse every token as a number (`num`), round
each to 3 decimals, and build
`Spline(EndPointControl(v1, v2, 0), [Control(v3, v4), Control(v5, v6)],
EndPointControl(v7, v8, 0))`; `none` models the thrown spline error. -/
def parseSplineLine (line : List Char) : Option Spline :=
  if (splitCommaSpace line).length = 8 then
    match (splitCommaSpace line).mapM jsNumber with
    | some [v1, v2, v3, v4, v5, v6, v7, v8] =>
      some ⟨⟨⟨round3 v1, round3 v2⟩, ⟨0, 1⟩⟩,
            [⟨round3 v3, round3 v4⟩, ⟨round3 v5, round3 v6⟩],
            ⟨⟨round3 v7, round3 v8⟩, ⟨0, 1⟩⟩⟩
    | _ => none
  else none

def defaultSplineQ : Spline := ⟨⟨⟨⟨0, 1⟩, ⟨0, 1⟩⟩, ⟨0, 1⟩⟩, [], ⟨⟨⟨0, 1⟩, ⟨0, 1⟩⟩, ⟨0, 1⟩⟩⟩

/-- The speed limit of a freshly decoded path: the defaults of
`buildPathConfig()` with `to` replaced by
`clamp(Number(maxSpeed.toFixed(3)), minLimit.value, maxLimit.value)`
(source line 167). -/
def speedLimitFor (maxSpeed : Q) : NumberRange :=
  { defaultSpeedLimit with
      toValue := clamp (round3 maxSpeed) defaultSpeedLimit.minLimitValue
                   defaultSpeedLimit.maxLimitValue }

/-- The decoder's `push` (source lines 163–179): the first spline seeds the
single `Path` (its speed-limit `to` set to the clamped, rounded max speed);
every further spline must start where the last one ended, by coordinate
equality, and is appended to the last path; `none` models the thrown error. -/
def push (maxSpeed : Q) (spline : Spline) : List Path → Option (List Path)
  | [] => some [⟨speedLimitFor maxSpeed, [spline]⟩]
  | p :: ps =>
    let path := (p :: ps).getLast (List.cons_ne_nil p ps)
    let a := (path.splines.getLastD defaultSplineQ).last
    let b := spline.first
    if a.pos.x.beq b.pos.x && a.pos.y.beq b.pos.y then
      some ((p :: ps).dropLast ++ [{ path with splines := path.splines ++ [spline] }])
    else none

/-- The decoder's scan loop (source lines 181–194): `j` is the 0-based index of
the current line; errors carry the 1-based line number `j + 1`. -/
def decodeLoop (maxSpeed : Q) : ℕ → List (List Char) → List Path → Except DecodeError (List Path)
  | _, [], paths => .ok paths
  | j, line :: rest, paths =>
    match parseSplineLine line with
    | none => .error (.splineError (j + 1))
    | some spline =>
      match push maxSpeed spline paths with
      | none => .error (.splineError (j + 1))
      | some paths2 => decodeLoop maxSpeed (j + 1) rest paths2

/-- `recoverPathFileData` (decode): split on `"\n"`, find the first `"endData"`
line (index `i`), parse line `i + 2` as the max speed (an absent line reads as
JS `undefined`, i.e. `NaN`), then parse spline lines from `i + 4` up to but
excluding the last line. -/
def recoverPathFileData (fileContent : String) : Except DecodeError (List Path) :=
  let lines := splitLines fileContent.toList
  match lines.findIdx? (fun l => l == sentinelChars) with
  | none => .error .missingSentinel
  | some i =>
    match (lines.get? (i + 2)).bind jsNumber with
    | none => .error .invalidMaxSpeed
    | some maxSpeed =>
      decodeLoop maxSpeed (i + 4) ((lines.take (lines.length - 1)).drop (i + 4)) []

/-! ### Encoder: `exportPathFile` (source lines 199–264) -/

/-- `UnitConverter(uol, Inch).fromAtoB`, for conversion factor `f` from the
path's unit to inches.  Modelled from the spec (§4.3): linear conversion with
the fixed-precision rounding. -/
def fromAtoB (f x : Q) : Q := round3 (x.mul f)

/-- `UnitConverter(uol, Inch).fromBtoA` (inches back to the path's unit). -/
def fromBtoA (f x : Q) : Q := round3 (x.div f)

/-- `UnitConverter.fixPrecision`: the 3-decimal rounding alone. -/
def fixPrecision (x : Q) : Q := round3 x

/-- One sample produced by the external point-sampler collaborator (§6). -/
structure SampledPoint where
  x : Q
  y : Q
  speed : Q
deriving DecidableEq

def commaChars : List Char := [',', ' ']

/-- Join chunks with the `", "` separator (the encoder's `output` postfixes). -/
def joinSep : List (List Char) → List Char
  | [] => []
  | [v] => v
  | v :: w :: rest => v ++ commaChars ++ joinSep (w :: rest)

/-- The values on one emitted sample line (source line 213):
`uc.fromAtoB(point.x), uc.fromAtoB(point.y), uc.fixPrecision(point.speed)`. -/
def sampledLineValues (f : Q) (p : SampledPoint) : Q × Q × Q :=
  (fromAtoB f p.x, fromAtoB f p.y, fixPrecision p.speed)

def sampledLine (f : Q) (p : SampledPoint) : List Char :=
  joinSep [fmtQ (sampledLineValues f p).1, fmtQ (sampledLineValues f p).2.1,
           fmtQ (sampledLineValues f p).2.2]

/-- The ghost point (source lines 216–235): only when more than one point was
sampled; `last2`/`last1` are the second-to-last and last sampled points and the
overrun is their distance plus 20 inches brought into the path's unit. -/
def ghostPoint (sq : Q → Q) (f : Q) (points : List SampledPoint) : Option Vector :=
  match points.reverse with
  | last1p :: last2p :: _ =>
    let last2 : Vector := ⟨last2p.x, last2p.y⟩
    let last1 : Vector := ⟨last1p.x, last1p.y⟩
    some (last2.interpolate sq last1 ((last2.distance sq last1).add (fromBtoA f ⟨20, 1⟩)))
  | _ => none

/-- The values on the emitted ghost line: converted coordinates and the literal
speed `0` (source line 234). -/
def ghostLineValues (sq : Q → Q) (f : Q) (points : List SampledPoint) : Option (Q × Q × Q) :=
  (ghostPoint sq f points).map (fun g => (fromAtoB f g.x, fromAtoB f g.y, ⟨0, 1⟩))

def ghostLine (sq : Q → Q) (f : Q) (points : List SampledPoint) : Option (List Char) :=
  (ghostPoint sq f points).map
    (fun g => joinSep [fmtQ (fromAtoB f g.x), fmtQ (fromAtoB f g.y), ['0']])

/-- One converted control coordinate pair as emitted by `output` (line 242). -/
def convertPoint (f : Q) (v : Vector) : Q × Q := (fromAtoB f v.x, fromAtoB f v.y)

/-- The coordinate pairs of one spline's control section (source lines
246–259): a 4-control spline emits its controls verbatim; a 2-control spline
emits `p0, center, center, p1` with `center` the midpoint; any other control
count emits nothing. -/
def controlLineValues (f : Q) (s : Spline) : List (Q × Q) :=
  match s.mid with
  | [c1, c2] => [convertPoint f s.first.pos, convertPoint f c1, convertPoint f c2,
                 convertPoint f s.last.pos]
  | [] =>
    let center := (s.first.pos.add s.last.pos).divide ⟨⟨2, 1⟩, ⟨2, 1⟩⟩
    [convertPoint f s.first.pos, convertPoint f center, convertPoint f center,
     convertPoint f s.last.pos]
  | _ => []

def controlLine (f : Q) (s : Spline) : Option (List Char) :=
  match controlLineValues f s with
  | [] => none
  | vs => some (joinSep ((vs.map (fun p => [fmtQ p.1, fmtQ p.2])).flatten))

inductive EncodeError
  | noPathToExport
  | noSplineToExport
deriving DecidableEq

def twoHundredChars : List Char := "200".toList

/-- The `"\n"`-terminated lines of the export, in emission order: one line per
sampled point, the optional ghost line, the sentinel, the unsupported `200`
deceleration, the speed limit, the unsupported `200` multiplier, and one line
per (2- or 4-control) spline. -/
def encodeLines (sq : Q → Q) (f : Q) (path : Path) (points : List SampledPoint) :
    List (List Char) :=
  points.map (sampledLine f) ++ (ghostLine sq f points).toList
    ++ [sentinelChars, twoHundredChars, fmtQ path.speedLimit.toValue, twoHundredChars]
    ++ path.splines.filterMap (controlLine f)

/-- Append `"\n"` after each line and the unterminated tail after the last. -/
def unlines (ls : List (List Char)) (tail : List Char) : List Char :=
  ls.foldr (fun l acc => l ++ '\n' :: acc) tail

def metaPrefixChars : List Char := "#PATH.JERRYIO-DATA ".toList

/-- `exportPathFile` (encode): fails when there is no path (`app.interestedPath()`
undefined) or the path has no splines; otherwise emits the lines of
`encodeLines` followed by the `#PATH.JERRYIO-DATA ` metadata suffix, whose JSON
payload (built by the external document exporter, §6) is the parameter `json`.
`sq` is the runtime square root, `f` the unit-to-inch factor, `points` the
sampler's output for this path. -/
def exportPathFile (sq : Q → Q) (f : Q) (path? : Option Path)
    (points : List SampledPoint) (json : List Char) : Except EncodeError String :=
  match path? with
  | none => .error .noPathToExport
  | some path =>
    if path.splines.isEmpty then .error .noSplineToExport
    else .ok (String.mk (unlines (encodeLines sq f path points) (metaPrefixChars ++ json)))

/-- Decode input with header `endData / 200 / ms / 200` followed by the given
body lines, each `"\n"`-terminated (so the split ends with an empty line). -/
def mkInput (ms : List Char) (body : List (List Char)) : String :=
  String.mk (unlines (sentinelChars :: twoHundredChars :: ms :: twoHundredChars :: body) [])

/-- Exact adjacency of the control points of consecutive splines: each spline
starts at the very coordinates where the previous one ended. -/
def chainB : List Spline → Bool
  | [] => true
  | [_] => true
  | a :: b :: rest => (decide (a.last.pos = b.first.pos)) && chainB (b :: rest)

/-! ## Helper lemmas: characters and digit strings -/

theorem takeWhile_eq_self_of_all {p : Char → Bool} :
    ∀ {l : List Char}, (∀ c ∈ l, p c = true) → l.takeWhile p = l := by
  intro l h
  induction l with
  | nil => rfl
  | cons c t ih =>
    simp [List.takeWhile_cons, h c (List.mem_cons_self c t),
      ih fun x hx => h x (List.mem_cons_of_mem c hx)]

theorem dropWhile_eq_nil_of_all {p : Char → Bool} :
    ∀ {l : List Char}, (∀ c ∈ l, p c = true) → l.dropWhile p = [] := by
  intro l h
  induction l with
  | nil => rfl
  | cons c t ih =>
    simp only [List.dropWhile_cons, h c (List.mem_cons_self c t), if_true,
      ih fun x hx => h x (List.mem_cons_of_mem c hx)]

theorem dropWhile_eq_self_of_none {p : Char → Bool} :
    ∀ {l : List Char}, (∀ c ∈ l, p c = false) → l.dropWhile p = l := by
  intro l h
  cases l with
  | nil => rfl
  | cons c t => simp [List.dropWhile_cons, h c (List.mem_cons_self c t)]

theorem takeWhile_middle {p : Char → Bool} {b : Char} :
    ∀ (a : List Char) (t : List Char), (∀ c ∈ a, p c = true) → p b = false →
      (a ++ b :: t).takeWhile p = a := by
  intro a t ha hb
  induction a with
  | nil => simp [List.takeWhile_cons, hb]
  | cons c a' ih =>
    simp only [List.cons_append, List.takeWhile_cons, ha c (List.mem_cons_self c a')]
    simp [ih fun x hx => ha x (List.mem_cons_of_mem c hx)]

theorem dropWhile_middle {p : Char → Bool} {b : Char} :
    ∀ (a : List Char) (t : List Char), (∀ c ∈ a, p c = true) → p b = false →
      (a ++ b :: t).dropWhile p = b :: t := by
  intro a t ha hb
  induction a with
  | nil => simp [List.dropWhile_cons, hb]
  | cons c a' ih =>
    simp only [List.cons_append, List.dropWhile_cons, ha c (List.mem_cons_self c a'), if_true]
    exact ih fun x hx => ha x (List.mem_cons_of_mem c hx)

theorem trimWs_eq_self {cs : List Char} (h : ∀ c ∈ cs, isWs c = false) : trimWs cs = cs := by
  unfold trimWs
  rw [dropWhile_eq_self_of_none h,
      dropWhile_eq_self_of_none fun c hc => h c (List.mem_reverse.mp hc),
      List.reverse_reverse]

theorem isDigitCh_digitCh {d : ℕ} (hd : d < 10) : isDigitCh (digitCh d) = true := by
  interval_cases d <;> decide

theorem digitVal_digitCh {d : ℕ} (hd : d < 10) : digitVal (digitCh d) = d := by
  interval_cases d <;> decide

/-- Characters are "plain" for our purposes when they are not whitespace, not a
newline, not a comma and not a sign: everything the surrounding scanners might
key on. -/
def plainCh (c : Char) : Prop :=
  isWs c = false ∧ c ≠ '\n' ∧ c ≠ ',' ∧ c ≠ '-' ∧ c ≠ '+'

theorem plainCh_digitCh {d : ℕ} (hd : d < 10) : plainCh (digitCh d) := by
  interval_cases d <;> exact ⟨by decide, by decide, by decide, by decide, by decide⟩

theorem plainCh_of_isDigitCh {c : Char} (h : isDigitCh c = true) : plainCh c := by
  have h' : 48 ≤ c.toNat ∧ c.toNat ≤ 57 := by simpa [isDigitCh] using h
  clear h
  refine ⟨?_, ?_, ?_, ?_, ?_⟩
  · simp only [isWs, Bool.or_eq_false_iff, beq_eq_false_iff_ne]
    refine ⟨⟨fun he => ?_, fun he => ?_⟩, fun he => ?_⟩ <;> (subst he; revert h'; decide)
  all_goals (intro he; subst he; revert h'; decide)

theorem natDigitsAux_lt10 : ∀ (fuel n : ℕ), ∀ d ∈ natDigitsAux fuel n, d < 10 := by
  intro fuel
  induction fuel with
  | zero => intro n d hd; simp [natDigitsAux] at hd
  | succ f ih =>
    intro n d hd
    cases n with
    | zero => simp [natDigitsAux] at hd
    | succ m =>
      simp only [natDigitsAux, List.mem_cons] at hd
      rcases hd with h | h
      · subst h; exact Nat.mod_lt _ (by norm_num)
      · exact ih _ _ h

/-- Value of a little-endian digit list. -/
def valLE : List ℕ → ℕ
  | [] => 0
  | d :: ds => d + 10 * valLE ds

theorem valLE_natDigitsAux : ∀ (fuel n : ℕ), n ≤ fuel → valLE (natDigitsAux fuel n) = n := by
  intro fuel
  induction fuel with
  | zero => intro n h; interval_cases n; rfl
  | succ f ih =>
    intro n h
    cases n with
    | zero => rfl
    | succ m =>
      have hlt : (m + 1) / 10 < m + 1 := Nat.div_lt_self (Nat.succ_pos m) (by norm_num)
      have hdiv : (m + 1) / 10 ≤ f := by omega
      simp only [natDigitsAux, valLE, ih _ hdiv]
      omega

theorem digitsVal_snoc (xs : List Char) (c : Char) :
    digitsVal (xs ++ [c]) = 10 * digitsVal xs + digitVal c := by
  simp [digitsVal, List.foldl_append]

theorem digitsVal_rev_map : ∀ (ds : List ℕ), (∀ d ∈ ds, d < 10) →
    digitsVal ((ds.map digitCh).reverse) = valLE ds := by
  intro ds h
  induction ds with
  | nil => rfl
  | cons d ds ih =>
    simp only [List.map_cons, List.reverse_cons]
    rw [digitsVal_snoc, ih fun x hx => h x (List.mem_cons_of_mem d hx),
      digitVal_digitCh (h d (List.mem_cons_self d ds))]
    simp [valLE]; ring

theorem digitsVal_natToChars (n : ℕ) : digitsVal (natToChars n) = n := by
  unfold natToChars
  split
  · next h => subst h; rfl
  · rw [digitsVal_rev_map _ (natDigitsAux_lt10 n n), valLE_natDigitsAux n n le_rfl]

theorem natToChars_all_digit (n : ℕ) : ∀ c ∈ natToChars n, isDigitCh c = true := by
  unfold natToChars
  split
  · intro c hc; simp at hc; subst hc; decide
  · intro c hc
    simp only [List.mem_reverse, List.mem_map] at hc
    obtain ⟨d, hd, rfl⟩ := hc
    exact isDigitCh_digitCh (natDigitsAux_lt10 n n d hd)

theorem natToChars_ne_nil (n : ℕ) : natToChars n ≠ [] := by
  unfold natToChars
  split
  · simp
  · next h =>
    cases hn : natDigitsAux n n with
    | nil =>
      exfalso
      have := valLE_natDigitsAux n n le_rfl
      rw [hn] at this
      simp [valLE] at this
      exact h this.symm
    | cons d ds => simp [hn]

theorem digit3_all_digit {m : ℕ} (hm : m < 1000) : ∀ c ∈ digit3 m, isDigitCh c = true := by
  intro c hc
  simp only [digit3, List.mem_cons, List.not_mem_nil, or_false] at hc
  rcases hc with rfl | rfl | rfl
  · exact isDigitCh_digitCh (by omega)
  · exact isDigitCh_digitCh (by omega)
  · exact isDigitCh_digitCh (by omega)

theorem digitsVal_digit3 {m : ℕ} (hm : m < 1000) : digitsVal (digit3 m) = m := by
  have h1 : m / 100 < 10 := by omega
  have h2 : m / 10 % 10 < 10 := by omega
  have h3 : m % 10 < 10 := by omega
  simp only [digit3, digitsVal, List.foldl_cons, List.foldl_nil,
    digitVal_digitCh h1, digitVal_digitCh h2, digitVal_digitCh h3]
  omega

/-! ## Parse/format roundtrip -/

theorem fmtN_all_plain (n : ℕ) : ∀ c ∈ fmtN n, isDigitCh c = true ∨ c = '.' := by
  intro c hc
  simp only [fmtN, List.mem_append, List.mem_cons] at hc
  rcases hc with h | h | h
  · exact Or.inl (natToChars_all_digit _ c h)
  · exact Or.inr h
  · exact Or.inl (digit3_all_digit (Nat.mod_lt n (by norm_num)) c h)

theorem plainCh_dot : plainCh '.' := ⟨by decide, by decide, by decide, by decide, by decide⟩

theorem fmtN_plain (n : ℕ) : ∀ c ∈ fmtN n, plainCh c := by
  intro c hc
  rcases fmtN_all_plain n c hc with h | rfl
  · exact plainCh_of_isDigitCh h
  · exact plainCh_dot

theorem fmt3_plain (m : ℤ) : ∀ c ∈ fmt3 m, isWs c = false ∧ c ≠ '\n' ∧ c ≠ ',' := by
  intro c hc
  unfold fmt3 at hc
  split at hc
  · rcases List.mem_cons.mp hc with rfl | h
    · exact ⟨by decide, by decide, by decide⟩
    · obtain ⟨h1, h2, h3, _, _⟩ := fmtN_plain _ c h
      exact ⟨h1, h2, h3⟩
  · obtain ⟨h1, h2, h3, _, _⟩ := fmtN_plain _ c hc
    exact ⟨h1, h2, h3⟩

theorem parseUnsigned_fmtN (n : ℕ) : parseUnsigned (fmtN n) = some ⟨(n : ℤ), 1000⟩ := by
  have hdot : isDigitCh '.' = false := by decide
  have hip := natToChars_all_digit (n / 1000)
  have hr : n % 1000 < 1000 := Nat.mod_lt n (by norm_num)
  unfold parseUnsigned fmtN
  rw [takeWhile_middle _ _ hip hdot, dropWhile_middle _ _ hip hdot]
  simp only
  rw [takeWhile_eq_self_of_all (digit3_all_digit hr),
      dropWhile_eq_nil_of_all (digit3_all_digit hr)]
  simp only [List.isEmpty_nil, if_true]
  rw [if_neg (by simp [List.isEmpty_eq_true, natToChars_ne_nil (n / 1000)])]
  have hlen : (digit3 (n % 1000)).length = 3 := rfl
  simp only [Option.some.injEq, Q.mk.injEq]
  refine ⟨?_, ?_⟩
  · rw [hlen]
    push_cast
    rw [digitsVal_natToChars, digitsVal_digit3 hr]
    omega
  · rw [hlen]
    norm_num

theorem jsNumber_fmt3 (m : ℤ) : jsNumber (fmt3 m) = some ⟨m, 1000⟩ := by
  have htrim : trimWs (fmt3 m) = fmt3 m :=
    trimWs_eq_self fun c hc => (fmt3_plain m c hc).1
  rcases lt_or_ge m 0 with hm | hm
  · have hf : fmt3 m = '-' :: fmtN m.natAbs := by rw [fmt3, if_pos hm]
    rw [hf] at htrim
    rw [hf]
    unfold jsNumber
    rw [htrim]
    simp only [if_pos rfl, if_true, parseUnsigned_fmtN, Option.map_some', Q.neg]
    simp only [Option.some.injEq, Q.mk.injEq]
    exact ⟨by omega, by trivial⟩
  · have hf : fmt3 m = fmtN m.toNat := by rw [fmt3, if_neg (not_lt.mpr hm)]
    obtain ⟨c0, cs0, hcons⟩ : ∃ c0 cs0, natToChars (m.toNat / 1000) = c0 :: cs0 := by
      cases h : natToChars (m.toNat / 1000) with
      | nil => exact absurd h (natToChars_ne_nil _)
      | cons c0 cs0 => exact ⟨c0, cs0, rfl⟩
    have hc0 : isDigitCh c0 = true :=
      natToChars_all_digit _ c0 (by rw [hcons]; exact List.mem_cons_self c0 cs0)
    obtain ⟨_, _, _, hm1, hp1⟩ := plainCh_of_isDigitCh hc0
    have hshape : fmtN m.toNat = c0 :: (cs0 ++ '.' :: digit3 (m.toNat % 1000)) := by
      rw [fmtN, hcons]; rfl
    rw [hf] at htrim
    rw [hshape] at htrim
    rw [hf, hshape]
    unfold jsNumber
    rw [htrim]
    simp only [if_neg hm1, if_neg hp1]
    rw [← hshape, parseUnsigned_fmtN]
    simp only [Option.some.injEq, Q.mk.injEq]
    exact ⟨by omega, by trivial⟩

theorem jsNumber_fmtQ {q : Q} (h : q.den = 1000) : jsNumber (fmtQ q) = some q := by
  unfold fmtQ
  rw [h, Int.mul_fdiv_cancel q.num (by norm_num), jsNumber_fmt3]
  cases q with
  | mk n d => simp_all

/-! ## Rounding lemmas -/

theorem round3_den1000 {q : Q} (h : q.den = 1000) : round3 q = q := by
  cases q with
  | mk n d =>
    subst h
    unfold round3 Q.mul Q.ofInt Q.roundHalfAZ
    simp only
    split
    · next hn =>
      congr 1
      rw [Int.fdiv_eq_ediv _ (by norm_num)]
      omega
    · next hn =>
      congr 1
      rw [Int.fdiv_eq_ediv _ (by norm_num)]
      omega

theorem round3_den (a : Q) : (round3 a).den = 1000 := rfl

/-- Floor-division characterisation used for the rounding error bound. -/
theorem fdiv_bounds {a b : ℤ} (hb : 0 < b) :
    b * (a.fdiv b) ≤ a ∧ a < b * (a.fdiv b) + b := by
  have h1 := Int.fmod_add_fdiv a b
  have h2 := Int.fmod_nonneg' a hb
  have h3 := Int.fmod_lt_of_pos a hb
  constructor <;> linarith

theorem fdiv_half_close {n d : ℤ} (hd : 0 < d) :
    |(((2 * n + d).fdiv (2 * d) : ℤ) : ℚ) - (n : ℚ) / (d : ℚ)| ≤ 1 / 2 := by
  have hd' : (0 : ℚ) < (d : ℚ) := by exact_mod_cast hd
  obtain ⟨h1, h2⟩ := fdiv_bounds (a := 2 * n + d) (b := 2 * d) (by omega)
  set k := (2 * n + d).fdiv (2 * d) with hk
  have h1q : 2 * (d : ℚ) * (k : ℚ) ≤ 2 * (n : ℚ) + (d : ℚ) := by exact_mod_cast h1
  have h2q : 2 * (n : ℚ) + (d : ℚ) < 2 * (d : ℚ) * (k : ℚ) + 2 * (d : ℚ) := by
    exact_mod_cast h2
  rw [abs_le]
  constructor
  · have hnd : (n : ℚ) / d < (k : ℚ) + 1 / 2 := by
      rw [div_lt_iff hd']
      nlinarith
    linarith
  · have hstep : ((k : ℚ) - 1 / 2) * d ≤ (n : ℚ) := by nlinarith
    have hnd : (k : ℚ) - 1 / 2 ≤ (n : ℚ) / d := (le_div_iff hd').mpr hstep
    linarith

theorem roundHalfAZ_bound {a : Q} (hd : 0 < a.den) :
    |(Q.roundHalfAZ a : ℚ) - a.val| ≤ 1 / 2 := by
  unfold Q.roundHalfAZ Q.val
  split
  · next hn => exact fdiv_half_close hd
  · next hn =>
    have h := fdiv_half_close (n := -a.num) (d := a.den) hd
    have hcast : ((-a.num : ℤ) : ℚ) / (a.den : ℚ) = -((a.num : ℚ) / (a.den : ℚ)) := by
      push_cast
      ring
    rw [hcast, sub_neg_eq_add] at h
    push_cast
    rw [show -(((2 * -a.num + a.den).fdiv (2 * a.den) : ℚ)) - (a.num : ℚ) / (a.den : ℚ)
          = -((((2 * -a.num + a.den).fdiv (2 * a.den) : ℤ) : ℚ) + (a.num : ℚ) / (a.den : ℚ)) by
        push_cast; ring, abs_neg]
    exact_mod_cast h

/-! ## Splitting lemmas -/

theorem splitLines_cons (c : Char) (rest : List Char) :
    splitLines (c :: rest) = if c = '\n' then [] :: splitLines rest
      else match splitLines rest with
        | l :: ls => (c :: l) :: ls
        | [] => [[c]] := rfl

theorem splitLines_ne_nil (cs : List Char) : splitLines cs ≠ [] := by
  induction cs with
  | nil => simp [splitLines]
  | cons c rest ih =>
    rw [splitLines_cons]
    split
    · simp
    · cases h : splitLines rest with
      | nil => simp
      | cons l ls => simp

theorem splitLines_no_nl {t : List Char} (h : '\n' ∉ t) : splitLines t = [t] := by
  induction t with
  | nil => rfl
  | cons c rest ih =>
    have hc : c ≠ '\n' := fun hh => h (hh ▸ List.mem_cons_self c rest)
    have ht : '\n' ∉ rest := fun hh => h (List.mem_cons_of_mem c hh)
    rw [splitLines_cons, if_neg hc, ih ht]

theorem splitLines_append {a : List Char} (t : List Char) (h : '\n' ∉ a) :
    splitLines (a ++ '\n' :: t) = a :: splitLines t := by
  induction a with
  | nil => simp [splitLines_cons]
  | cons c a' ih =>
    have hc : c ≠ '\n' := fun hh => h (hh ▸ List.mem_cons_self c a')
    have ha : '\n' ∉ a' := fun hh => h (List.mem_cons_of_mem c hh)
    rw [List.cons_append, splitLines_cons, if_neg hc, ih ha]

theorem splitLines_unlines {ls : List (List Char)} {tail : List Char}
    (hls : ∀ l ∈ ls, '\n' ∉ l) (ht : '\n' ∉ tail) :
    splitLines (unlines ls tail) = ls ++ [tail] := by
  induction ls with
  | nil => exact splitLines_no_nl ht
  | cons l ls ih =>
    have h1 : '\n' ∉ l := hls l (List.mem_cons_self l ls)
    have h2 : ∀ x ∈ ls, '\n' ∉ x := fun x hx => hls x (List.mem_cons_of_mem l hx)
    show splitLines (l ++ '\n' :: unlines ls tail) = (l :: ls) ++ [tail]
    rw [splitLines_append _ h1, ih h2]
    rfl

theorem splitCommaSpace_cons2 (c d : Char) (rest : List Char) :
    splitCommaSpace (c :: d :: rest) = if c = ',' ∧ d = ' ' then [] :: splitCommaSpace rest
      else match splitCommaSpace (d :: rest) with
        | l :: ls => (c :: l) :: ls
        | [] => [[c]] := rfl

theorem splitCommaSpace_ne_nil (cs : List Char) : splitCommaSpace cs ≠ [] := by
  induction cs with
  | nil => simp [splitCommaSpace]
  | cons c tail ih =>
    cases tail with
    | nil => simp [splitCommaSpace]
    | cons d rest =>
      rw [splitCommaSpace_cons2]
      split
      · simp
      · cases h : splitCommaSpace (d :: rest) with
        | nil => simp
        | cons l ls => simp

theorem splitCommaSpace_no_comma {a : List Char} (h : ',' ∉ a) : splitCommaSpace a = [a] := by
  induction a with
  | nil => rfl
  | cons c tail ih =>
    have hc : c ≠ ',' := fun hh => h (hh ▸ List.mem_cons_self c tail)
    have htl : ',' ∉ tail := fun hh => h (List.mem_cons_of_mem c hh)
    cases tail with
    | nil => rfl
    | cons d rest =>
      rw [splitCommaSpace_cons2, if_neg (fun hh => hc hh.1), ih htl]

theorem splitCommaSpace_append {a : List Char} (t : List Char) (h : ',' ∉ a) :
    splitCommaSpace (a ++ ',' :: ' ' :: t) = a :: splitCommaSpace t := by
  induction a with
  | nil =>
    show splitCommaSpace (',' :: ' ' :: t) = [] :: splitCommaSpace t
    rw [splitCommaSpace_cons2, if_pos ⟨rfl, rfl⟩]
  | cons c a' ih =>
    have hc : c ≠ ',' := fun hh => h (hh ▸ List.mem_cons_self c a')
    have ha : ',' ∉ a' := fun hh => h (List.mem_cons_of_mem c hh)
    cases a' with
    | nil =>
      show splitCommaSpace (c :: ',' :: ' ' :: t) = [c] :: splitCommaSpace t
      rw [splitCommaSpace_cons2, if_neg (fun hh => hc hh.1), splitCommaSpace_cons2,
        if_pos ⟨rfl, rfl⟩]
    | cons d a'' =>
      have hstep := ih ha
      show splitCommaSpace (c :: (d :: a'' ++ ',' :: ' ' :: t))
        = (c :: d :: a'') :: splitCommaSpace t
      rw [show d :: a'' ++ ',' :: ' ' :: t = d :: (a'' ++ ',' :: ' ' :: t) from rfl,
        splitCommaSpace_cons2, if_neg (fun hh => hc hh.1)]
      simp only [List.cons_append] at hstep
      rw [hstep]

theorem joinSep_split {vs : List (List Char)} (hne : vs ≠ [])
    (h : ∀ v ∈ vs, ',' ∉ v) : splitCommaSpace (joinSep vs) = vs := by
  induction vs with
  | nil => exact absurd rfl hne
  | cons v vs ih =>
    cases vs with
    | nil => exact splitCommaSpace_no_comma (h v (List.mem_cons_self v []))
    | cons w ws =>
      have hv : ',' ∉ v := h v (List.mem_cons_self v _)
      have hrest : ∀ x ∈ w :: ws, ',' ∉ x := fun x hx => h x (List.mem_cons_of_mem v hx)
      have hshape : joinSep (v :: w :: ws) = v ++ ',' :: ' ' :: joinSep (w :: ws) := by
        show v ++ commaChars ++ joinSep (w :: ws) = v ++ ',' :: ' ' :: joinSep (w :: ws)
        rw [List.append_assoc]
        rfl
      rw [hshape, splitCommaSpace_append _ hv, ih (by simp) hrest]

/-! ## Decoder-loop lemmas -/

theorem Q.beq_self (a : Q) : Q.beq a a = true := by
  simp [Q.beq]

/-- The parsed splines are pairwise connected: each one starts at `prev`. -/
def chainCond : Vector → List Spline → Prop
  | _, [] => True
  | prev, s :: rest => prev = s.first.pos ∧ chainCond s.last.pos rest

theorem decodeLoop_nil (ms : Q) (j : ℕ) (acc : List Path) :
    decodeLoop ms j [] acc = .ok acc := rfl

theorem decodeLoop_cons (ms : Q) (j : ℕ) (l : List Char) (rest : List (List Char))
    (acc : List Path) :
    decodeLoop ms j (l :: rest) acc
      = match parseSplineLine l with
        | none => .error (.splineError (j + 1))
        | some s =>
          match push ms s acc with
          | none => .error (.splineError (j + 1))
          | some acc2 => decodeLoop ms (j + 1) rest acc2 := rfl

theorem push_ok {ms : Q} {s : Spline} {sl : NumberRange} {sp : List Spline} (hsp : sp ≠ [])
    (hch : (sp.getLast hsp).last.pos = s.first.pos) :
    push ms s [⟨sl, sp⟩] = some [⟨sl, sp ++ [s]⟩] := by
  unfold push
  simp only [List.getLast_singleton, List.getLastD_eq_getLast?,
    List.getLast?_eq_getLast _ hsp, Option.getD_some]
  rw [if_pos]
  · simp
  · rw [hch]
    simp [Q.beq_self]

theorem decodeLoop_ok {ms : Q} : ∀ (lines : List (List Char)) (ss : List Spline) (j : ℕ)
    (sl : NumberRange) (sp : List Spline) (hsp : sp ≠ []),
    lines.mapM parseSplineLine = some ss →
    chainCond ((sp.getLast hsp).last.pos) ss →
    decodeLoop ms j lines [⟨sl, sp⟩] = .ok [⟨sl, sp ++ ss⟩] := by
  intro lines
  induction lines with
  | nil =>
    intro ss j sl sp hsp hmap hch
    simp only [List.mapM_nil, Option.pure_def, Option.some.injEq] at hmap
    subst hmap
    simp [decodeLoop_nil]
  | cons l rest ih =>
    intro ss j sl sp hsp hmap hch
    rw [List.mapM_cons] at hmap
    cases hp : parseSplineLine l with
    | none => rw [hp] at hmap; simp at hmap
    | some s =>
      rw [hp] at hmap
      cases hr : rest.mapM parseSplineLine with
      | none => rw [hr] at hmap; simp at hmap
      | some ss' =>
        rw [hr] at hmap
        simp only [Option.pure_def, Option.bind_eq_bind, Option.some_bind,
          Option.some.injEq] at hmap
        subst hmap
        obtain ⟨hch1, hch2⟩ := hch
        rw [decodeLoop_cons, hp]
        simp only [push_ok hsp hch1]
        rw [ih ss' (j + 1) sl (sp ++ [s]) (by simp) hr
          (by rw [List.getLast_concat]; exact hch2)]
        simp

/-- Chained spline sequence, starting anywhere. -/
def chainStart : List Spline → Prop
  | [] => True
  | s :: rest => chainCond s.last.pos rest

/-- The path list produced by a successful run of the loop from an empty
accumulator on lines parsing to `ss`. -/
def decodedPaths (ms : Q) (ss : List Spline) : List Path :=
  match ss with
  | [] => []
  | _ :: _ => [⟨speedLimitFor ms, ss⟩]

theorem decodeLoop_ok_nil {ms : Q} {lines : List (List Char)} {ss : List Spline} {j : ℕ}
    (hmap : lines.mapM parseSplineLine = some ss) (hch : chainStart ss) :
    decodeLoop ms j lines [] = .ok (decodedPaths ms ss) := by
  cases lines with
  | nil =>
    simp only [List.mapM_nil, Option.pure_def, Option.some.injEq] at hmap
    subst hmap
    simp [decodeLoop_nil, decodedPaths]
  | cons l rest =>
    rw [List.mapM_cons] at hmap
    cases hp : parseSplineLine l with
    | none => rw [hp] at hmap; simp at hmap
    | some s =>
      rw [hp] at hmap
      cases hr : rest.mapM parseSplineLine with
      | none => rw [hr] at hmap; simp at hmap
      | some ss' =>
        rw [hr] at hmap
        simp only [Option.pure_def, Option.bind_eq_bind, Option.some_bind,
          Option.some.injEq] at hmap
        subst hmap
        rw [decodeLoop_cons, hp]
        have hpush : push ms s [] = some [⟨speedLimitFor ms, [s]⟩] := rfl
        simp only [hpush]
        rw [decodeLoop_ok rest ss' (j + 1) (speedLimitFor ms) [s] (by simp) hr
          (by simpa [chainStart] using hch)]
        simp [decodedPaths]

/-- Sequential decomposition of the loop. -/
theorem decodeLoop_append {ms : Q} : ∀ (l1 l2 : List (List Char)) (j : ℕ) (acc : List Path),
    decodeLoop ms j (l1 ++ l2) acc
      = match decodeLoop ms j l1 acc with
        | .error e => .error e
        | .ok acc2 => decodeLoop ms (j + l1.length) l2 acc2 := by
  intro l1
  induction l1 with
  | nil => intro l2 j acc; simp [decodeLoop_nil]
  | cons l rest ih =>
    intro l2 j acc
    rw [List.cons_append]
    cases hp : parseSplineLine l with
    | none => simp [decodeLoop_cons, hp]
    | some s =>
      cases hq : push ms s acc with
      | none => simp [decodeLoop_cons, hp, hq]
      | some acc2 =>
        simp only [decodeLoop_cons, hp, hq]
        rw [ih l2 (j + 1) acc2, List.length_cons]
        have h2 : j + 1 + rest.length = j + (rest.length + 1) := by omega
        rw [h2]

/-- Inverting a successful `push`: either the accumulator was empty and the
result is the freshly seeded path, or the last path got the spline appended. -/
theorem push_shape {ms : Q} {s : Spline} {acc acc2 : List Path}
    (h : push ms s acc = some acc2) :
    acc2 = [⟨speedLimitFor ms, [s]⟩] ∨
    ∃ path, path ∈ acc ∧
      acc2 = acc.dropLast ++ [{ path with splines := path.splines ++ [s] }] := by
  cases acc with
  | nil =>
    left
    have hh : push ms s [] = some [⟨speedLimitFor ms, [s]⟩] := rfl
    rw [hh] at h
    exact (Option.some.inj h).symm
  | cons p0 ps0 =>
    right
    refine ⟨(p0 :: ps0).getLast (List.cons_ne_nil p0 ps0), List.getLast_mem _, ?_⟩
    simp only [push] at h
    split at h
    · exact (Option.some.inj h).symm
    · exact absurd h (by simp)

/-- Every path in a successful loop result got its speed limit either from the
accumulator or from `speedLimitFor ms`. -/
theorem decodeLoop_speedLimit {ms : Q} :
    ∀ (lines : List (List Char)) (j : ℕ) (acc ps : List Path),
    (∀ p ∈ acc, p.speedLimit = speedLimitFor ms) →
    decodeLoop ms j lines acc = .ok ps →
    ∀ p ∈ ps, p.speedLimit = speedLimitFor ms := by
  intro lines
  induction lines with
  | nil =>
    intro j acc ps hacc hok
    rw [decodeLoop_nil] at hok
    simp only [Except.ok.injEq] at hok
    subst hok
    exact hacc
  | cons l rest ih =>
    intro j acc ps hacc hok
    rw [decodeLoop_cons] at hok
    cases hp : parseSplineLine l with
    | none => rw [hp] at hok; simp at hok
    | some s =>
      rw [hp] at hok
      cases hq : push ms s acc with
      | none => simp only [hq] at hok; exact absurd hok (by simp)
      | some acc2 =>
        simp only [hq] at hok
        refine ih (j + 1) acc2 ps ?_ hok
        intro p hp2
        rcases push_shape hq with hsh | ⟨path, hmem, hsh⟩
        · subst hsh
          simp only [List.mem_singleton] at hp2
          subst hp2
          rfl
        · subst hsh
          rcases List.mem_append.mp hp2 with hmem2 | hmem2
          · exact hacc p (List.dropLast_subset _ hmem2)
          · simp only [List.mem_singleton] at hmem2
            subst hmem2
            exact hacc path hmem

/-! ## findIdx helpers -/

theorem findIdx_sentinel {A B : List (List Char)}
    (hA : ∀ a ∈ A, (a == sentinelChars) = false) :
    ∀ i, List.findIdx? (fun l => l == sentinelChars) (A ++ sentinelChars :: B) i
      = some (i + A.length) := by
  induction A with
  | nil =>
    intro i
    simp [List.findIdx?_cons]
  | cons a A' ih =>
    intro i
    rw [List.cons_append, List.findIdx?_cons, hA a (List.mem_cons_self a A'),
      if_neg (by simp), ih fun x hx => hA x (List.mem_cons_of_mem a hx)]
    simp only [List.length_cons]
    congr 1
    omega

/-! ## Decoder on shaped inputs -/

/-- Unfolding of the decoder. -/
theorem recover_eq (fileContent : String) :
    recoverPathFileData fileContent
      = match (splitLines fileContent.toList).findIdx? (fun l => l == sentinelChars) with
        | none => .error .missingSentinel
        | some i =>
          match ((splitLines fileContent.toList).get? (i + 2)).bind jsNumber with
          | none => .error .invalidMaxSpeed
          | some maxSpeed =>
            decodeLoop maxSpeed (i + 4)
              (((splitLines fileContent.toList).take
                  ((splitLines fileContent.toList).length - 1)).drop (i + 4)) [] := rfl

theorem splitLines_append_gen : ∀ (a t : List Char),
    splitLines (a ++ '\n' :: t) = splitLines a ++ splitLines t := by
  intro a t
  induction a with
  | nil =>
    show splitLines ('\n' :: t) = splitLines [] ++ splitLines t
    rw [splitLines_cons, if_pos rfl]
    rfl
  | cons c a' ih =>
    rw [List.cons_append, splitLines_cons]
    by_cases hc : c = '\n'
    · rw [if_pos hc, ih]
      show [] :: (splitLines a' ++ splitLines t)
        = splitLines (c :: a') ++ splitLines t
      rw [splitLines_cons, if_pos hc]
      rfl
    · rw [if_neg hc, ih]
      cases h' : splitLines a' with
      | nil => exact absurd h' (splitLines_ne_nil a')
      | cons l ls =>
        show (c :: l) :: (ls ++ splitLines t) = splitLines (c :: a') ++ splitLines t
        rw [splitLines_cons, if_neg hc, h']
        rfl

theorem recover_mkInput (ms : List Char) (body : List (List Char))
    (hms : '\n' ∉ ms) (hbody : ∀ l ∈ body, '\n' ∉ l) :
    recoverPathFileData (mkInput ms body)
      = match jsNumber ms with
        | none => .error .invalidMaxSpeed
        | some q => decodeLoop q 4 body [] := by
  have hlines : splitLines (mkInput ms body).toList
      = (sentinelChars :: twoHundredChars :: ms :: twoHundredChars :: body) ++ [[]] := by
    show splitLines
        (unlines (sentinelChars :: twoHundredChars :: ms :: twoHundredChars :: body) []) = _
    refine splitLines_unlines ?_ (by simp)
    intro l hl
    simp only [List.mem_cons] at hl
    rcases hl with rfl | rfl | rfl | rfl | hl
    · decide
    · decide
    · exact hms
    · decide
    · exact hbody l hl
  have hfind : ((sentinelChars :: twoHundredChars :: ms :: twoHundredChars :: body)
      ++ [[]]).findIdx? (fun l => l == sentinelChars) = some 0 := by
    rw [List.cons_append, List.findIdx?_cons]
    simp
  have hget : (((sentinelChars :: twoHundredChars :: ms :: twoHundredChars :: body)
      ++ [[]]).get? (0 + 2)).bind jsNumber = jsNumber ms := rfl
  have htakedrop : ((((sentinelChars :: twoHundredChars :: ms :: twoHundredChars :: body)
        ++ [[]]).take
          (((sentinelChars :: twoHundredChars :: ms :: twoHundredChars :: body)
            ++ [[]]).length - 1)).drop (0 + 4)) = body := by
    have h1 : ((sentinelChars :: twoHundredChars :: ms :: twoHundredChars :: body)
        ++ [[]]).length - 1
        = (sentinelChars :: twoHundredChars :: ms :: twoHundredChars :: body).length := by
      simp
    rw [h1, List.take_left]
    rfl
  rw [recover_eq]
  simp only [hlines, hfind, hget, htakedrop]

/-! ## Claim C8: missing sentinel -/

/-- C8.  For every input text that contains no line exactly equal to the
literal `"endData"`, `decode` fails with the missing-sentinel error and
returns no `Path` at all (the result is the error alone, never a partial
path list). -/
theorem C8_missing_sentinel (s : String)
    (h : ∀ l ∈ splitLines s.toList, l ≠ sentinelChars) :
    recoverPathFileData s = .error .missingSentinel := by
  rw [recover_eq]
  have hnone : (splitLines s.toList).findIdx? (fun l => l == sentinelChars) = none := by
    rw [List.findIdx?_eq_none_iff]
    intro x hx
    simpa using h x hx
  rw [hnone]

/-- Witness for C8 at the concrete input `"abc\ndef"`. -/
theorem C8_missing_sentinel_witness :
    recoverPathFileData "abc\ndef" = .error .missingSentinel :=
  C8_missing_sentinel "abc\ndef" (by decide)

/-! ## Claim C9: no spline lines, decode succeeds with an empty path list -/

/-- C9.  For every input containing an `"endData"` line whose line two after it
parses as a number but with no spline-data lines between index `sentinel + 4`
and the second-to-last line, `decode` succeeds and returns an empty path list:
no `Path` object is constructed and no error is raised. -/
theorem C9_no_spline_lines_empty (s : String) (i : ℕ) (q : Q)
    (hfind : (splitLines s.toList).findIdx? (fun l => l == sentinelChars) = some i)
    (hms : ((splitLines s.toList).get? (i + 2)).bind jsNumber = some q)
    (hshort : (splitLines s.toList).length - 1 ≤ i + 4) :
    recoverPathFileData s = .ok [] := by
  rw [recover_eq]
  simp only [hfind, hms]
  have hnil : (((splitLines s.toList).take ((splitLines s.toList).length - 1)).drop (i + 4))
      = [] := by
    rw [List.drop_eq_nil_iff]
    calc ((splitLines s.toList).take ((splitLines s.toList).length - 1)).length
        ≤ (splitLines s.toList).length - 1 := by
          rw [List.length_take]
          omega
      _ ≤ i + 4 := hshort
  rw [hnil, decodeLoop_nil]

/-- Witness for C9: the header-only file `"endData\n200\n100\n200\n"`. -/
theorem C9_no_spline_lines_empty_witness :
    recoverPathFileData "endData\n200\n100\n200\n" = .ok [] :=
  C9_no_spline_lines_empty "endData\n200\n100\n200\n" 0 ⟨100, 1⟩
    (by decide) (by decide) (by decide)

/-! ## Claim C10: the final line is never parsed -/

/-- C10.  `decode` never parses the final line of its input: two inputs that
agree on every character up to and including the final `"\n"`, with the
sentinel and the max-speed line inside that common prefix, decode to the same
result — whatever the unterminated last line holds. -/
theorem C10_final_line_ignored (p t1 t2 : List Char) (i : ℕ)
    (h1 : '\n' ∉ t1) (h2 : '\n' ∉ t2)
    (hfind : (splitLines p).findIdx? (fun l => l == sentinelChars) = some i)
    (hms : i + 2 < (splitLines p).length) :
    recoverPathFileData (String.mk (p ++ '\n' :: t1))
      = recoverPathFileData (String.mk (p ++ '\n' :: t2)) := by
  have key : ∀ t : List Char, '\n' ∉ t →
      recoverPathFileData (String.mk (p ++ '\n' :: t))
        = match ((splitLines p).get? (i + 2)).bind jsNumber with
          | none => .error .invalidMaxSpeed
          | some maxSpeed =>
            decodeLoop maxSpeed (i + 4) (((splitLines p).drop (i + 4))) [] := by
    intro t ht
    have hlines : splitLines (String.mk (p ++ '\n' :: t)).toList
        = splitLines p ++ [t] := by
      show splitLines (p ++ '\n' :: t) = _
      rw [splitLines_append_gen, splitLines_no_nl ht]
    have hfind2 : (splitLines p ++ [t]).findIdx? (fun l => l == sentinelChars) = some i := by
      rw [List.findIdx?_append, hfind]
      rfl
    have hget2 : (splitLines p ++ [t]).get? (i + 2) = (splitLines p).get? (i + 2) :=
      List.get?_append hms
    have htake2 : (splitLines p ++ [t]).take ((splitLines p ++ [t]).length - 1)
        = splitLines p := by
      have : (splitLines p ++ [t]).length - 1 = (splitLines p).length := by
        simp
      rw [this, List.take_left]
    rw [recover_eq]
    simp only [hlines, hfind2, hget2, htake2]
  rw [key t1 h1, key t2 h2]

/-- Witness for C10: a well-formed 8-token spline line appearing as the
unterminated last line is silently dropped — the result equals that for an
empty last line. -/
theorem C10_final_line_ignored_witness :
    recoverPathFileData (String.mk
        (("endData\n200\n100\n200\n0, 0, 1, 0, 2, 0, 3, 0\n").toList
          ++ '\n' :: ("4, 0, 5, 0, 6, 0, 7, 0").toList))
      = recoverPathFileData (String.mk
          (("endData\n200\n100\n200\n0, 0, 1, 0, 2, 0, 3, 0\n").toList
            ++ '\n' :: ([] : List Char))) :=
  C10_final_line_ignored _ _ _ 0 (by decide) (by decide) (by decide) (by decide)

/-! ## Claim C5: max-speed parsing and clamping -/

/-- C5.  On a decode input whose sentinel is the first line, the line two
after the sentinel must parse as a number, else decode fails with the
invalid-max-speed error; when it parses to `q` and decode succeeds, every
recovered path's speed-limit upper bound is `q` rounded to 3 decimals and
clamped into `[minLimit.value, maxLimit.value] = [0, 127]`. -/
theorem C5_max_speed_parse_clamp (ms : List Char) (body : List (List Char))
    (hms : '\n' ∉ ms) (hbody : ∀ l ∈ body, '\n' ∉ l) :
    (jsNumber ms = none → recoverPathFileData (mkInput ms body) = .error .invalidMaxSpeed) ∧
    (∀ q : Q, jsNumber ms = some q →
      ∀ ps, recoverPathFileData (mkInput ms body) = .ok ps →
        ∀ p ∈ ps, p.speedLimit.toValue
          = clamp (round3 q) defaultSpeedLimit.minLimitValue
              defaultSpeedLimit.maxLimitValue) := by
  constructor
  · intro hnone
    rw [recover_mkInput ms body hms hbody, hnone]
  · intro q hq ps hok p hp
    have h3 := recover_mkInput ms body hms hbody
    simp only [hq] at h3
    rw [h3] at hok
    have h4 := decodeLoop_speedLimit body 4 [] ps (by simp) hok p hp
    rw [h4]
    rfl

/-- Witness for C5: a non-numeric max-speed line fails, and the concrete value
130 clamps to 127 on the decoded path. -/
theorem C5_max_speed_parse_clamp_witness :
    recoverPathFileData (mkInput ("abc".toList) []) = .error .invalidMaxSpeed ∧
    ({ speedLimit := ⟨⟨0, 1⟩, ⟨127, 1⟩, ⟨20, 1⟩, ⟨127, 1⟩⟩,
       splines := [⟨⟨⟨⟨0, 1000⟩, ⟨0, 1000⟩⟩, ⟨0, 1⟩⟩,
         [⟨⟨1000, 1000⟩, ⟨0, 1000⟩⟩, ⟨⟨2000, 1000⟩, ⟨0, 1000⟩⟩],
         ⟨⟨⟨3000, 1000⟩, ⟨0, 1000⟩⟩, ⟨0, 1⟩⟩⟩] } : Path).speedLimit.toValue
      = clamp (round3 ⟨130, 1⟩) defaultSpeedLimit.minLimitValue
          defaultSpeedLimit.maxLimitValue ∧
    clamp (round3 ⟨130, 1⟩) defaultSpeedLimit.minLimitValue defaultSpeedLimit.maxLimitValue
      = ⟨127, 1⟩ := by
  refine ⟨(C5_max_speed_parse_clamp ("abc".toList) [] (by decide) (by decide)).1 (by decide),
    ?_, by decide⟩
  apply (C5_max_speed_parse_clamp ("130".toList) [("0, 0, 1, 0, 2, 0, 3, 0").toList]
      (by decide) (by decide)).2 ⟨130, 1⟩ (by decide)
      [⟨⟨⟨0, 1⟩, ⟨127, 1⟩, ⟨20, 1⟩, ⟨127, 1⟩⟩,
        [⟨⟨⟨⟨0, 1000⟩, ⟨0, 1000⟩⟩, ⟨0, 1⟩⟩,
          [⟨⟨1000, 1000⟩, ⟨0, 1000⟩⟩, ⟨⟨2000, 1000⟩, ⟨0, 1000⟩⟩],
          ⟨⟨⟨3000, 1000⟩, ⟨0, 1000⟩⟩, ⟨0, 1⟩⟩⟩]⟩] (by decide)
  decide

/-! ## Claims C6 and C4: spline-line errors -/

theorem optionMapM_none_iff {α β : Type} (f : α → Option β) :
    ∀ (l : List α), l.mapM f = none ↔ ∃ a ∈ l, f a = none := by
  intro l
  induction l with
  | nil => rw [List.mapM_nil]; simp
  | cons a l ih =>
    rw [List.mapM_cons]
    cases hfa : f a with
    | none => simp [hfa]
    | some b =>
      cases hrec : l.mapM f with
      | none =>
        simp only [hrec, Option.pure_def, Option.bind_eq_bind, Option.some_bind,
          Option.none_bind]
        simp only [true_iff, List.mem_cons]
        obtain ⟨x, hx, hfx⟩ := (ih).mp hrec
        exact ⟨x, Or.inr hx, hfx⟩
      | some bs =>
        simp only [hrec, Option.pure_def, Option.bind_eq_bind, Option.some_bind]
        constructor
        · intro h; simp at h
        · intro ⟨x, hx, hfx⟩
          rcases List.mem_cons.mp hx with rfl | hx2
          · rw [hfa] at hfx; simp at hfx
          · have := (ih).mpr ⟨x, hx2, hfx⟩
            rw [hrec] at this
            simp at this

theorem optionMapM_length {α β : Type} {f : α → Option β} :
    ∀ {l : List α} {bs : List β}, l.mapM f = some bs → bs.length = l.length := by
  intro l
  induction l with
  | nil =>
    intro bs h
    simp only [List.mapM_nil, Option.pure_def, Option.some.injEq] at h
    subst h
    rfl
  | cons a l ih =>
    intro bs h
    rw [List.mapM_cons] at h
    cases hfa : f a with
    | none => rw [hfa] at h; simp at h
    | some b =>
      rw [hfa] at h
      cases hrec : l.mapM f with
      | none => rw [hrec] at h; simp at h
      | some cs =>
        rw [hrec] at h
        simp only [Option.pure_def, Option.bind_eq_bind, Option.some_bind,
          Option.some.injEq] at h
        subst h
        simp [ih hrec]

theorem exists_eight {α : Type} (vs : List α) (h : vs.length = 8) :
    ∃ v1 v2 v3 v4 v5 v6 v7 v8, vs = [v1, v2, v3, v4, v5, v6, v7, v8] := by
  rcases vs with _ | ⟨v1, vs⟩; · simp at h
  rcases vs with _ | ⟨v2, vs⟩; · simp at h
  rcases vs with _ | ⟨v3, vs⟩; · simp at h
  rcases vs with _ | ⟨v4, vs⟩; · simp at h
  rcases vs with _ | ⟨v5, vs⟩; · simp at h
  rcases vs with _ | ⟨v6, vs⟩; · simp at h
  rcases vs with _ | ⟨v7, vs⟩; · simp at h
  rcases vs with _ | ⟨v8, vs⟩; · simp at h
  rcases vs with _ | ⟨v9, vs⟩
  · exact ⟨v1, v2, v3, v4, v5, v6, v7, v8, rfl⟩
  · simp at h

/-- A spline line fails to parse exactly when its `", "`-split does not yield
8 tokens or some token is not a number. -/
theorem parseSplineLine_none_iff (l : List Char) :
    parseSplineLine l = none ↔
      ((splitCommaSpace l).length ≠ 8 ∨ ∃ t ∈ splitCommaSpace l, jsNumber t = none) := by
  unfold parseSplineLine
  by_cases hlen : (splitCommaSpace l).length = 8
  · rw [if_pos hlen]
    cases hmapm : (splitCommaSpace l).mapM jsNumber with
    | none =>
      exact iff_of_true rfl (Or.inr ((optionMapM_none_iff jsNumber _).mp hmapm))
    | some vs =>
      obtain ⟨v1, v2, v3, v4, v5, v6, v7, v8, rfl⟩ :=
        exists_eight vs ((optionMapM_length hmapm).trans hlen)
      constructor
      · intro h
        exact Option.noConfusion h
      · rintro (h | h)
        · exact absurd hlen h
        · exact absurd ((optionMapM_none_iff jsNumber _).mpr h)
            (by rw [hmapm]; simp)
  · rw [if_neg hlen]
    exact iff_of_true rfl (Or.inl hlen)

theorem push_fail {ms : Q} {s : Spline} {sl : NumberRange} {sp : List Spline} (hsp : sp ≠ [])
    (hmis : ((sp.getLast hsp).last.pos.x.beq s.first.pos.x
             && (sp.getLast hsp).last.pos.y.beq s.first.pos.y) = false) :
    push ms s [⟨sl, sp⟩] = none := by
  unfold push
  simp only [List.getLast_singleton, List.getLastD_eq_getLast?,
    List.getLast?_eq_getLast _ hsp, Option.getD_some]
  rw [if_neg]
  simp [hmis]

/-- Reaching a failing line: the loop runs the chained good lines, then fails
on the next line with the error naming that line's 1-based number. -/
theorem decodeLoop_reach_fail {msq : Q} {good : List (List Char)} {bad : List Char}
    {rest : List (List Char)} {ss : List Spline}
    (hgood : good.mapM parseSplineLine = some ss) (hch : chainStart ss)
    (hfail : match parseSplineLine bad with
      | none => True
      | some sb =>
        match ss with
        | [] => False
        | s0 :: _ => ∃ hne : ss ≠ [],
            ((ss.getLast hne).last.pos.x.beq sb.first.pos.x
              && (ss.getLast hne).last.pos.y.beq sb.first.pos.y) = false) :
    decodeLoop msq 4 (good ++ bad :: rest) []
      = .error (.splineError (4 + good.length + 1)) := by
  rw [decodeLoop_append, decodeLoop_ok_nil hgood hch]
  cases hp : parseSplineLine bad with
  | none => simp [decodeLoop_cons, hp]
  | some sb =>
    rw [hp] at hfail
    cases ss with
    | nil => exact absurd hfail (by simp)
    | cons s0 ss' =>
      obtain ⟨hne, hmis⟩ := hfail
      simp only [decodedPaths]
      rw [decodeLoop_cons, hp]
      simp only [push_fail hne hmis]

/-- C6.  Every spline-data line scanned by decode is split on the literal
`", "` separator, and decode fails with the spline-line error naming the
1-based number of that line unless the split yields exactly 8 tokens and every
token parses as a number: the first conjunct characterises the per-line
failure, the second shows the loop fails at the first malformed line, naming
its 1-based line number. -/
theorem C6_malformed_spline_line :
    (∀ l : List Char, parseSplineLine l = none ↔
      ((splitCommaSpace l).length ≠ 8 ∨ ∃ t ∈ splitCommaSpace l, jsNumber t = none)) ∧
    (∀ (ms : List Char) (q : Q) (good : List (List Char)) (bad : List Char)
      (rest : List (List Char)) (ss : List Spline),
      '\n' ∉ ms → (∀ l ∈ good, '\n' ∉ l) → '\n' ∉ bad → (∀ l ∈ rest, '\n' ∉ l) →
      jsNumber ms = some q →
      good.mapM parseSplineLine = some ss → chainStart ss →
      parseSplineLine bad = none →
      recoverPathFileData (mkInput ms (good ++ bad :: rest))
        = .error (.splineError (4 + good.length + 1))) := by
  constructor
  · exact parseSplineLine_none_iff
  · intro ms q good bad rest ss hms hgood hbad hrest hq hgoodparse hch hbadparse
    have hbody : ∀ l ∈ good ++ bad :: rest, '\n' ∉ l := by
      intro l hl
      rcases List.mem_append.mp hl with h | h
      · exact hgood l h
      · rcases List.mem_cons.mp h with rfl | h2
        · exact hbad
        · exact hrest l h2
    have h3 := recover_mkInput ms (good ++ bad :: rest) hms hbody
    simp only [hq] at h3
    rw [h3]
    exact decodeLoop_reach_fail hgoodparse hch (by rw [hbadparse]; trivial)

/-- Witness for C6: after one good line, a 7-token line and a 9-token line
each fail naming 1-based line 6. -/
theorem C6_malformed_spline_line_witness :
    recoverPathFileData (mkInput ("100".toList)
        [("0, 0, 1, 0, 2, 0, 3, 0").toList, ("1, 2, 3, 4, 5, 6, 7").toList])
      = .error (.splineError 6) ∧
    recoverPathFileData (mkInput ("100".toList)
        [("0, 0, 1, 0, 2, 0, 3, 0").toList, ("1, 2, 3, 4, 5, 6, 7, 8, 9").toList])
      = .error (.splineError 6) ∧
    (parseSplineLine (("1, 2, 3, 4, 5, 6, 7").toList) = none ↔
      ((splitCommaSpace (("1, 2, 3, 4, 5, 6, 7").toList)).length ≠ 8 ∨
        ∃ t ∈ splitCommaSpace (("1, 2, 3, 4, 5, 6, 7").toList), jsNumber t = none)) := by
  refine ⟨?_, ?_, C6_malformed_spline_line.1 _⟩
  · exact C6_malformed_spline_line.2 ("100".toList) ⟨100, 1⟩
      [("0, 0, 1, 0, 2, 0, 3, 0").toList] (("1, 2, 3, 4, 5, 6, 7").toList) []
      [⟨⟨⟨⟨0, 1000⟩, ⟨0, 1000⟩⟩, ⟨0, 1⟩⟩,
        [⟨⟨1000, 1000⟩, ⟨0, 1000⟩⟩, ⟨⟨2000, 1000⟩, ⟨0, 1000⟩⟩],
        ⟨⟨⟨3000, 1000⟩, ⟨0, 1000⟩⟩, ⟨0, 1⟩⟩⟩]
      (by decide) (by decide) (by decide) (by decide) (by decide) (by decide)
      (by trivial) (by decide)
  · exact C6_malformed_spline_line.2 ("100".toList) ⟨100, 1⟩
      [("0, 0, 1, 0, 2, 0, 3, 0").toList] (("1, 2, 3, 4, 5, 6, 7, 8, 9").toList) []
      [⟨⟨⟨⟨0, 1000⟩, ⟨0, 1000⟩⟩, ⟨0, 1⟩⟩,
        [⟨⟨1000, 1000⟩, ⟨0, 1000⟩⟩, ⟨⟨2000, 1000⟩, ⟨0, 1000⟩⟩],
        ⟨⟨⟨3000, 1000⟩, ⟨0, 1000⟩⟩, ⟨0, 1⟩⟩⟩]
      (by decide) (by decide) (by decide) (by decide) (by decide) (by decide)
      (by trivial) (by decide)

/-! ## Claim C4: discontinuity error -/

/-- C4 counterexample.  The claim says a coordinate mismatch raises a
`DiscontinuousPath` error *distinct in kind* from the malformed-syntax
error.  In the code both failures go through the same `error()` closure
("unable to parse spline at line N"): a discontinuous second spline and a
malformed (7-token) second line produce the *same* error value, so no
distinct error kind exists. -/
theorem C4_error_kind_counterexample :
    recoverPathFileData (mkInput ("100".toList)
        [("0, 0, 1, 0, 2, 0, 3, 0").toList, ("9, 9, 1, 0, 2, 0, 3, 0").toList])
      = .error (.splineError 6) ∧
    recoverPathFileData (mkInput ("100".toList)
        [("0, 0, 1, 0, 2, 0, 3, 0").toList, ("1, 2, 3, 4, 5, 6, 7").toList])
      = .error (.splineError 6) ∧
    recoverPathFileData (mkInput ("100".toList)
        [("0, 0, 1, 0, 2, 0, 3, 0").toList, ("9, 9, 1, 0, 2, 0, 3, 0").toList])
      = recoverPathFileData (mkInput ("100".toList)
          [("0, 0, 1, 0, 2, 0, 3, 0").toList, ("1, 2, 3, 4, 5, 6, 7").toList]) := by
  refine ⟨by decide, by decide, by decide⟩

/-- C4 amended.  For decode inputs whose spline lines are well-formed, a
subsequent spline line whose first endpoint's rounded coordinates differ from
the previous spline's last endpoint makes decode fail with the spline-parse
error naming the current 1-based line number — the same error kind the code
uses for malformed lines. -/
theorem C4_discontinuity_error (ms : List Char) (q : Q) (good : List (List Char))
    (bad : List Char) (rest : List (List Char)) (ss : List Spline) (sb : Spline)
    (hms : '\n' ∉ ms) (hgood : ∀ l ∈ good, '\n' ∉ l) (hbad : '\n' ∉ bad)
    (hrest : ∀ l ∈ rest, '\n' ∉ l)
    (hq : jsNumber ms = some q)
    (hgoodparse : good.mapM parseSplineLine = some ss)
    (hgne : ss ≠ [])
    (hch : chainStart ss)
    (hbadparse : parseSplineLine bad = some sb)
    (hmis : ((ss.getLast hgne).last.pos.x.beq sb.first.pos.x
             && (ss.getLast hgne).last.pos.y.beq sb.first.pos.y) = false) :
    recoverPathFileData (mkInput ms (good ++ bad :: rest))
      = .error (.splineError (4 + good.length + 1)) := by
  have hbody : ∀ l ∈ good ++ bad :: rest, '\n' ∉ l := by
    intro l hl
    rcases List.mem_append.mp hl with h | h
    · exact hgood l h
    · rcases List.mem_cons.mp h with rfl | h2
      · exact hbad
      · exact hrest l h2
  have h3 := recover_mkInput ms (good ++ bad :: rest) hms hbody
  simp only [hq] at h3
  rw [h3]
  refine decodeLoop_reach_fail hgoodparse hch ?_
  rw [hbadparse]
  cases ss with
  | nil => exact absurd rfl hgne
  | cons s0 ss' => exact ⟨hgne, hmis⟩

/-- Witness for C4's amended theorem at a concrete discontinuous input. -/
theorem C4_discontinuity_error_witness :
    recoverPathFileData (mkInput ("100".toList)
        [("0, 0, 1, 0, 2, 0, 3, 0").toList, ("9, 9, 1, 0, 2, 0, 3, 0").toList])
      = .error (.splineError 6) :=
  C4_discontinuity_error ("100".toList) ⟨100, 1⟩
    [("0, 0, 1, 0, 2, 0, 3, 0").toList] (("9, 9, 1, 0, 2, 0, 3, 0").toList) []
    [⟨⟨⟨⟨0, 1000⟩, ⟨0, 1000⟩⟩, ⟨0, 1⟩⟩,
      [⟨⟨1000, 1000⟩, ⟨0, 1000⟩⟩, ⟨⟨2000, 1000⟩, ⟨0, 1000⟩⟩],
      ⟨⟨⟨3000, 1000⟩, ⟨0, 1000⟩⟩, ⟨0, 1⟩⟩⟩]
    ⟨⟨⟨⟨9000, 1000⟩, ⟨9000, 1000⟩⟩, ⟨0, 1⟩⟩,
      [⟨⟨1000, 1000⟩, ⟨0, 1000⟩⟩, ⟨⟨2000, 1000⟩, ⟨0, 1000⟩⟩],
      ⟨⟨⟨3000, 1000⟩, ⟨0, 1000⟩⟩, ⟨0, 1⟩⟩⟩
    (by decide) (by decide) (by decide) (by decide) (by decide) (by decide)
    (by decide) (by trivial) (by decide) (by decide)

/-! ## Claim C7: 2-control spline export -/

/-- C7.  A 2-control (straight) spline's control section is emitted as the
four converted coordinate pairs `p0, midpoint, midpoint, p1`, with the
midpoint `(p0 + p1) / (2, 2)` appearing twice, and the section is emitted as
one line of the export. -/
theorem C7_two_control_export (f : Q) (s : Spline) (hmid : s.mid = []) :
    controlLineValues f s
      = [convertPoint f s.first.pos,
         convertPoint f ((s.first.pos.add s.last.pos).divide ⟨⟨2, 1⟩, ⟨2, 1⟩⟩),
         convertPoint f ((s.first.pos.add s.last.pos).divide ⟨⟨2, 1⟩, ⟨2, 1⟩⟩),
         convertPoint f s.last.pos] ∧
    controlLine f s
      = some (joinSep (((controlLineValues f s).map
          (fun p => [fmtQ p.1, fmtQ p.2])).flatten)) := by
  have h1 : controlLineValues f s
      = [convertPoint f s.first.pos,
         convertPoint f ((s.first.pos.add s.last.pos).divide ⟨⟨2, 1⟩, ⟨2, 1⟩⟩),
         convertPoint f ((s.first.pos.add s.last.pos).divide ⟨⟨2, 1⟩, ⟨2, 1⟩⟩),
         convertPoint f s.last.pos] := by
    unfold controlLineValues
    rw [hmid]
  refine ⟨h1, ?_⟩
  unfold controlLine
  rw [h1]

/-- Witness for C7: endpoints `(0,0)` and `(10,0)` with the identity (inch)
conversion export as the pairs `(0,0), (5,0), (5,0), (10,0)`. -/
theorem C7_two_control_export_witness :
    controlLineValues ⟨1, 1⟩
        (⟨⟨⟨⟨0, 1⟩, ⟨0, 1⟩⟩, ⟨0, 1⟩⟩, [], ⟨⟨⟨10, 1⟩, ⟨0, 1⟩⟩, ⟨0, 1⟩⟩⟩ : Spline)
      = [(⟨0, 1000⟩, ⟨0, 1000⟩), (⟨5000, 1000⟩, ⟨0, 1000⟩),
         (⟨5000, 1000⟩, ⟨0, 1000⟩), (⟨10000, 1000⟩, ⟨0, 1000⟩)] ∧
    (⟨5000, 1000⟩ : Q).val = 5 ∧ (⟨10000, 1000⟩ : Q).val = 10 ∧
    (⟨0, 1000⟩ : Q).val = 0 := by
  refine ⟨?_, by norm_num [Q.val], by norm_num [Q.val], by norm_num [Q.val]⟩
  rw [(C7_two_control_export ⟨1, 1⟩
    (⟨⟨⟨⟨0, 1⟩, ⟨0, 1⟩⟩, ⟨0, 1⟩⟩, [], ⟨⟨⟨10, 1⟩, ⟨0, 1⟩⟩, ⟨0, 1⟩⟩⟩ : Spline) rfl).1]
  decide

/-! ## Claim C3: the ghost point -/

theorem ghostPoint_last (sq : Q → Q) (f : Q) (pre : List SampledPoint)
    (p2 p1 : SampledPoint) :
    ghostPoint sq f (pre ++ [p2, p1])
      = some (Vector.interpolate sq ⟨p2.x, p2.y⟩ ⟨p1.x, p1.y⟩
          ((Vector.distance sq ⟨p2.x, p2.y⟩ ⟨p1.x, p1.y⟩).add (fromBtoA f ⟨20, 1⟩))) := by
  unfold ghostPoint
  rw [show (pre ++ [p2, p1]).reverse = p1 :: p2 :: pre.reverse by simp]

/-- C3.  Whenever more than one point is sampled, the encoder emits exactly
one ghost line, whose point is `last2.interpolate(last1, distance + 20-inch
 converted)`, at speed literally 0; with zero or one sampled point no ghost
line is emitted. -/
theorem C3_ghost_point_formula (sq : Q → Q) (f : Q) (points : List SampledPoint) :
    (1 < points.length → ∃ pre p2 p1, points = pre ++ [p2, p1]) ∧
    (∀ (pre : List SampledPoint) (p2 p1 : SampledPoint), points = pre ++ [p2, p1] →
      ghostPoint sq f points
        = some (Vector.interpolate sq ⟨p2.x, p2.y⟩ ⟨p1.x, p1.y⟩
            ((Vector.distance sq ⟨p2.x, p2.y⟩ ⟨p1.x, p1.y⟩).add (fromBtoA f ⟨20, 1⟩)))
      ∧ ghostLineValues sq f points
        = some (fromAtoB f (Vector.interpolate sq ⟨p2.x, p2.y⟩ ⟨p1.x, p1.y⟩
              ((Vector.distance sq ⟨p2.x, p2.y⟩ ⟨p1.x, p1.y⟩).add (fromBtoA f ⟨20, 1⟩))).x,
            fromAtoB f (Vector.interpolate sq ⟨p2.x, p2.y⟩ ⟨p1.x, p1.y⟩
              ((Vector.distance sq ⟨p2.x, p2.y⟩ ⟨p1.x, p1.y⟩).add (fromBtoA f ⟨20, 1⟩))).y,
            (⟨0, 1⟩ : Q))
      ∧ ((ghostLine sq f points).toList).length = 1) ∧
    (points.length ≤ 1 → ghostLine sq f points = none ∧ ghostLineValues sq f points = none) := by
  refine ⟨?_, ?_, ?_⟩
  · intro hlen
    rcases hr : points.reverse with _ | ⟨p1, tail⟩
    · rw [List.reverse_eq_nil_iff] at hr
      subst hr
      simp at hlen
    · rcases tail with _ | ⟨p2, rest⟩
      · have : points = [p1] := by
          rw [← List.reverse_reverse points, hr]
          rfl
        subst this
        simp at hlen
      · refine ⟨rest.reverse, p2, p1, ?_⟩
        rw [← List.reverse_reverse points, hr]
        simp
  · intro pre p2 p1 hpts
    subst hpts
    refine ⟨ghostPoint_last sq f pre p2 p1, ?_, ?_⟩
    · rw [ghostLineValues, ghostPoint_last sq f pre p2 p1, Option.map_some']
    · rw [ghostLine, ghostPoint_last sq f pre p2 p1, Option.map_some']
      rfl
  · intro hlen
    cases points with
    | nil => exact ⟨rfl, rfl⟩
    | cons p tail =>
      cases tail with
      | nil => exact ⟨rfl, rfl⟩
      | cons p2 tail2 => simp at hlen

/-- Witness for C3 at two concrete points `(0,0)` and `(3,4)` (distance 5; the
runtime square root instantiated exactly): the ghost point is `(15, 20)`, and
with fewer than two points no ghost line is emitted. -/
theorem C3_ghost_point_formula_witness :
    (ghostPoint (fun _ => ⟨5, 1⟩) ⟨1, 1⟩
        [⟨⟨0, 1⟩, ⟨0, 1⟩, ⟨1, 1⟩⟩, ⟨⟨3, 1⟩, ⟨4, 1⟩, ⟨1, 1⟩⟩]
      = some (Vector.interpolate (fun _ => ⟨5, 1⟩) ⟨⟨0, 1⟩, ⟨0, 1⟩⟩ ⟨⟨3, 1⟩, ⟨4, 1⟩⟩
          ((Vector.distance (fun _ => ⟨5, 1⟩) ⟨⟨0, 1⟩, ⟨0, 1⟩⟩ ⟨⟨3, 1⟩, ⟨4, 1⟩⟩).add
            (fromBtoA ⟨1, 1⟩ ⟨20, 1⟩)))) ∧
    (Vector.interpolate (fun _ => (⟨5, 1⟩ : Q)) ⟨⟨0, 1⟩, ⟨0, 1⟩⟩ ⟨⟨3, 1⟩, ⟨4, 1⟩⟩
        ((Vector.distance (fun _ => (⟨5, 1⟩ : Q)) ⟨⟨0, 1⟩, ⟨0, 1⟩⟩ ⟨⟨3, 1⟩, ⟨4, 1⟩⟩).add
          (fromBtoA ⟨1, 1⟩ ⟨20, 1⟩))).x.val = 15 ∧
    ghostLine (fun _ => (⟨5, 1⟩ : Q)) ⟨1, 1⟩ [⟨⟨0, 1⟩, ⟨0, 1⟩, ⟨1, 1⟩⟩] = none := by
  refine ⟨((C3_ghost_point_formula (fun _ => ⟨5, 1⟩) ⟨1, 1⟩
      [⟨⟨0, 1⟩, ⟨0, 1⟩, ⟨1, 1⟩⟩, ⟨⟨3, 1⟩, ⟨4, 1⟩, ⟨1, 1⟩⟩]).2.1 []
      ⟨⟨0, 1⟩, ⟨0, 1⟩, ⟨1, 1⟩⟩ ⟨⟨3, 1⟩, ⟨4, 1⟩, ⟨1, 1⟩⟩ rfl).1, ?_,
    ((C3_ghost_point_formula (fun _ => ⟨5, 1⟩) ⟨1, 1⟩
      [⟨⟨0, 1⟩, ⟨0, 1⟩, ⟨1, 1⟩⟩]).2.2 (by decide)).1⟩
  norm_num [Vector.interpolate, Vector.distance, Q.sub, Q.mul, Q.add, Q.div,
    fromBtoA, round3, Q.ofInt, Q.roundHalfAZ, Q.val, Int.fdiv]

/-! ## Claim C2: the ghost line for sampled points ending (10,0), (14,0) -/

/-- C2 counterexample.  With unit = inch and sampled points `(10,0,60)`,
`(14,0,60)` (true Euclidean distance 4, square root instantiated exactly on
16), the emitted ghost line is `(34, 0, 0)` — not `(18, 0, 0)` as the claim
states. -/
theorem C2_ghost_line_counterexample :
    Vector.distance (fun _ => (⟨4, 1⟩ : Q)) ⟨⟨10, 1⟩, ⟨0, 1⟩⟩ ⟨⟨14, 1⟩, ⟨0, 1⟩⟩ = ⟨4, 1⟩ ∧
    ghostLineValues (fun _ => ⟨4, 1⟩) ⟨1, 1⟩
        [⟨⟨10, 1⟩, ⟨0, 1⟩, ⟨60, 1⟩⟩, ⟨⟨14, 1⟩, ⟨0, 1⟩, ⟨60, 1⟩⟩]
      = some (⟨34000, 1000⟩, ⟨0, 1000⟩, ⟨0, 1⟩) ∧
    (⟨34000, 1000⟩ : Q).val = 34 ∧ ¬ ((⟨34000, 1000⟩ : Q).val = 18) := by
  refine ⟨by decide, by decide, by norm_num [Q.val], by norm_num [Q.val]⟩

/-- C2 amended.  For a path exported with unit = inch whose sampled point
sequence ends with `(10, 0)` and `(14, 0)`, the ghost line emitted by encode
is the point `(34, 0)` with speed 0 (overrun `4 + 20 = 24` from `(10,0)`
toward `(14,0)`). -/
theorem C2_ghost_line_amended (sq : Q → Q) (pre : List SampledPoint) (s1 s2 : Q)
    (hsq : sq ⟨16, 1⟩ = ⟨4, 1⟩) :
    ghostLineValues sq ⟨1, 1⟩ (pre ++ [⟨⟨10, 1⟩, ⟨0, 1⟩, s1⟩, ⟨⟨14, 1⟩, ⟨0, 1⟩, s2⟩])
      = some (⟨34000, 1000⟩, ⟨0, 1000⟩, ⟨0, 1⟩) := by
  have hdist : Vector.distance sq ⟨⟨10, 1⟩, ⟨0, 1⟩⟩ ⟨⟨14, 1⟩, ⟨0, 1⟩⟩ = ⟨4, 1⟩ := by
    show sq ⟨16, 1⟩ = ⟨4, 1⟩
    exact hsq
  rw [ghostLineValues, ghostPoint_last sq ⟨1, 1⟩ pre _ _, Option.map_some']
  simp only [Vector.interpolate, hdist]
  decide

/-- Witness for C2's amended theorem at the two-point sequence itself. -/
theorem C2_ghost_line_amended_witness :
    ghostLineValues (fun _ => ⟨4, 1⟩) ⟨1, 1⟩
        ([] ++ [⟨⟨10, 1⟩, ⟨0, 1⟩, ⟨60, 1⟩⟩, ⟨⟨14, 1⟩, ⟨0, 1⟩, ⟨60, 1⟩⟩])
      = some (⟨34000, 1000⟩, ⟨0, 1000⟩, ⟨0, 1⟩) :=
  C2_ghost_line_amended (fun _ => ⟨4, 1⟩) [] ⟨60, 1⟩ ⟨60, 1⟩ (by decide)

/-! ## Claim C1: encode/decode roundtrip — infrastructure -/

/-- The control list of a codec-exportable spline: 2 or 4 controls. -/
def goodShapeB (s : Spline) : Bool := s.mid.length = 0 || s.mid.length = 2

theorem goodShape_of_B {s : Spline} (h : goodShapeB s = true) :
    s.mid = [] ∨ ∃ c1 c2, s.mid = [c1, c2] := by
  simp only [goodShapeB, Bool.or_eq_true, decide_eq_true_eq] at h
  rcases h with h | h
  · exact Or.inl (List.length_eq_zero.mp h)
  · exact Or.inr (List.length_eq_two.mp h)

/-- The one text line of a spline's control section. -/
def renderLine (f : Q) (s : Spline) : List Char :=
  joinSep (((controlLineValues f s).map (fun p => [fmtQ p.1, fmtQ p.2])).flatten)

/-- The spline that decode recovers from an encoded control section. -/
def reSpline (f : Q) (s : Spline) : Spline :=
  match controlLineValues f s with
  | [p1, p2, p3, p4] =>
    ⟨⟨⟨p1.1, p1.2⟩, ⟨0, 1⟩⟩, [⟨p2.1, p2.2⟩, ⟨p3.1, p3.2⟩], ⟨⟨p4.1, p4.2⟩, ⟨0, 1⟩⟩⟩
  | _ => defaultSplineQ

theorem controlLineValues_four {f : Q} {s : Spline}
    (h : s.mid = [] ∨ ∃ c1 c2, s.mid = [c1, c2]) :
    ∃ q2 q3, controlLineValues f s
      = [convertPoint f s.first.pos, q2, q3, convertPoint f s.last.pos] := by
  rcases h with h | ⟨c1, c2, h⟩
  · refine ⟨convertPoint f ((s.first.pos.add s.last.pos).divide ⟨⟨2, 1⟩, ⟨2, 1⟩⟩),
      convertPoint f ((s.first.pos.add s.last.pos).divide ⟨⟨2, 1⟩, ⟨2, 1⟩⟩), ?_⟩
    unfold controlLineValues
    rw [h]
  · refine ⟨convertPoint f c1, convertPoint f c2, ?_⟩
    unfold controlLineValues
    rw [h]

theorem convertPoint_den (f : Q) (v : Vector) :
    (convertPoint f v).1.den = 1000 ∧ (convertPoint f v).2.den = 1000 := ⟨rfl, rfl⟩

theorem controlLineValues_dens (f : Q) (s : Spline) :
    ∀ p ∈ controlLineValues f s, p.1.den = 1000 ∧ p.2.den = 1000 := by
  intro p hp
  unfold controlLineValues at hp
  rcases hmid : s.mid with _ | ⟨c1, tail⟩
  · rw [hmid] at hp
    simp only [List.mem_cons, List.not_mem_nil, or_false] at hp
    rcases hp with rfl | rfl | rfl | rfl <;> exact convertPoint_den f _
  · rw [hmid] at hp
    rcases tail with _ | ⟨c2, tail2⟩
    · simp at hp
    · rcases tail2 with _ | ⟨c3, tail3⟩
      · simp only [List.mem_cons, List.not_mem_nil, or_false] at hp
        rcases hp with rfl | rfl | rfl | rfl <;> exact convertPoint_den f _
      · simp at hp

theorem reSpline_first {f : Q} {s : Spline} (h : s.mid = [] ∨ ∃ c1 c2, s.mid = [c1, c2]) :
    (reSpline f s).first.pos
      = ⟨(convertPoint f s.first.pos).1, (convertPoint f s.first.pos).2⟩ := by
  obtain ⟨q2, q3, hval⟩ := controlLineValues_four (f := f) h
  unfold reSpline
  rw [hval]

theorem reSpline_last {f : Q} {s : Spline} (h : s.mid = [] ∨ ∃ c1 c2, s.mid = [c1, c2]) :
    (reSpline f s).last.pos
      = ⟨(convertPoint f s.last.pos).1, (convertPoint f s.last.pos).2⟩ := by
  obtain ⟨q2, q3, hval⟩ := controlLineValues_four (f := f) h
  unfold reSpline
  rw [hval]

theorem controlLine_eq {f : Q} {s : Spline} (h : s.mid = [] ∨ ∃ c1 c2, s.mid = [c1, c2]) :
    controlLine f s = some (renderLine f s) := by
  obtain ⟨q2, q3, hval⟩ := controlLineValues_four (f := f) h
  unfold controlLine renderLine
  rw [hval]

theorem fmtQ_plain (q : Q) : ∀ c ∈ fmtQ q, isWs c = false ∧ c ≠ '\n' ∧ c ≠ ',' :=
  fmt3_plain _

theorem fmtQ_no_comma (q : Q) : ',' ∉ fmtQ q :=
  fun hc => (fmtQ_plain q ',' hc).2.2 rfl

theorem fmtQ_no_nl (q : Q) : '\n' ∉ fmtQ q :=
  fun hc => (fmtQ_plain q '\n' hc).2.1 rfl

theorem jsNumber_fmtQ_any (q : Q) :
    jsNumber (fmtQ q) = some ⟨(q.num * 1000).fdiv q.den, 1000⟩ :=
  jsNumber_fmt3 _

/-- Parsing the rendered 8-token line of four 3-decimal coordinate pairs. -/
theorem parseSplineLine_render (p1 p2 p3 p4 : Q × Q)
    (h : ∀ p ∈ [p1, p2, p3, p4], p.1.den = 1000 ∧ p.2.den = 1000) :
    parseSplineLine (joinSep (([p1, p2, p3, p4].map
        (fun p => [fmtQ p.1, fmtQ p.2])).flatten))
      = some ⟨⟨⟨p1.1, p1.2⟩, ⟨0, 1⟩⟩, [⟨p2.1, p2.2⟩, ⟨p3.1, p3.2⟩],
          ⟨⟨p4.1, p4.2⟩, ⟨0, 1⟩⟩⟩ := by
  obtain ⟨h11, h12⟩ := h p1 (by simp)
  obtain ⟨h21, h22⟩ := h p2 (by simp)
  obtain ⟨h31, h32⟩ := h p3 (by simp)
  obtain ⟨h41, h42⟩ := h p4 (by simp)
  have hflat : ([p1, p2, p3, p4].map (fun p => [fmtQ p.1, fmtQ p.2])).flatten
      = [fmtQ p1.1, fmtQ p1.2, fmtQ p2.1, fmtQ p2.2, fmtQ p3.1, fmtQ p3.2,
         fmtQ p4.1, fmtQ p4.2] := rfl
  rw [hflat]
  have hsplit : splitCommaSpace (joinSep [fmtQ p1.1, fmtQ p1.2, fmtQ p2.1, fmtQ p2.2,
      fmtQ p3.1, fmtQ p3.2, fmtQ p4.1, fmtQ p4.2])
      = [fmtQ p1.1, fmtQ p1.2, fmtQ p2.1, fmtQ p2.2, fmtQ p3.1, fmtQ p3.2,
         fmtQ p4.1, fmtQ p4.2] := by
    refine joinSep_split (by simp) ?_
    intro v hv
    simp only [List.mem_cons, List.not_mem_nil, or_false] at hv
    rcases hv with rfl | rfl | rfl | rfl | rfl | rfl | rfl | rfl <;> exact fmtQ_no_comma _
  unfold parseSplineLine
  rw [hsplit]
  rw [if_pos (show ([fmtQ p1.1, fmtQ p1.2, fmtQ p2.1, fmtQ p2.2, fmtQ p3.1, fmtQ p3.2,
    fmtQ p4.1, fmtQ p4.2] : List (List Char)).length = 8 from rfl)]
  have hmapm : [fmtQ p1.1, fmtQ p1.2, fmtQ p2.1, fmtQ p2.2, fmtQ p3.1, fmtQ p3.2,
      fmtQ p4.1, fmtQ p4.2].mapM jsNumber
      = some [p1.1, p1.2, p2.1, p2.2, p3.1, p3.2, p4.1, p4.2] := by
    simp only [List.mapM_cons, List.mapM_nil, jsNumber_fmtQ h11, jsNumber_fmtQ h12,
      jsNumber_fmtQ h21, jsNumber_fmtQ h22, jsNumber_fmtQ h31, jsNumber_fmtQ h32,
      jsNumber_fmtQ h41, jsNumber_fmtQ h42, Option.pure_def, Option.bind_eq_bind,
      Option.some_bind]
  rw [hmapm]
  simp only [round3_den1000 h11, round3_den1000 h12, round3_den1000 h21,
    round3_den1000 h22, round3_den1000 h31, round3_den1000 h32, round3_den1000 h41,
    round3_den1000 h42]

theorem parse_renderLine {f : Q} {s : Spline} (h : s.mid = [] ∨ ∃ c1 c2, s.mid = [c1, c2]) :
    parseSplineLine (renderLine f s) = some (reSpline f s) := by
  obtain ⟨q2, q3, hval⟩ := controlLineValues_four (f := f) h
  have hdens := controlLineValues_dens f s
  rw [hval] at hdens
  unfold renderLine reSpline
  rw [hval]
  exact parseSplineLine_render _ _ _ _ hdens

theorem filterMap_controlLine (f : Q) : ∀ (ss : List Spline),
    (∀ s ∈ ss, goodShapeB s = true) →
    ss.filterMap (controlLine f) = ss.map (renderLine f) := by
  intro ss h
  induction ss with
  | nil => rfl
  | cons s rest ih =>
    rw [List.filterMap_cons, controlLine_eq (goodShape_of_B (h s (List.mem_cons_self s rest))),
      List.map_cons, ih fun x hx => h x (List.mem_cons_of_mem s hx)]

theorem mapM_parse_renders (f : Q) : ∀ (ss : List Spline),
    (∀ s ∈ ss, goodShapeB s = true) →
    (ss.map (renderLine f)).mapM parseSplineLine = some (ss.map (reSpline f)) := by
  intro ss h
  induction ss with
  | nil => rfl
  | cons s rest ih =>
    rw [List.map_cons, List.mapM_cons,
      parse_renderLine (goodShape_of_B (h s (List.mem_cons_self s rest))),
      ih fun x hx => h x (List.mem_cons_of_mem s hx)]
    rfl

theorem chainB_cons2 (a b : Spline) (rest : List Spline) :
    chainB (a :: b :: rest)
      = ((decide (a.last.pos = b.first.pos)) && chainB (b :: rest)) := rfl

theorem chainCond_map (f : Q) : ∀ (ss : List Spline) (a : Spline),
    goodShapeB a = true → (∀ s ∈ ss, goodShapeB s = true) →
    chainB (a :: ss) = true →
    chainCond (reSpline f a).last.pos (ss.map (reSpline f)) := by
  intro ss
  induction ss with
  | nil => intro a _ _ _; trivial
  | cons b rest ih =>
    intro a ha hmem hch
    rw [chainB_cons2, Bool.and_eq_true, decide_eq_true_eq] at hch
    obtain ⟨hab, hch2⟩ := hch
    have hb := hmem b (List.mem_cons_self b rest)
    refine ⟨?_, ih b hb (fun x hx => hmem x (List.mem_cons_of_mem b hx)) hch2⟩
    rw [reSpline_last (goodShape_of_B ha), reSpline_first (goodShape_of_B hb), hab]

theorem chainStart_map (f : Q) (ss : List Spline)
    (hmem : ∀ s ∈ ss, goodShapeB s = true) (hch : chainB ss = true) :
    chainStart (ss.map (reSpline f)) := by
  cases ss with
  | nil => trivial
  | cons a rest =>
    show chainCond (reSpline f a).last.pos (rest.map (reSpline f))
    exact chainCond_map f rest a (hmem a (List.mem_cons_self a rest))
      (fun x hx => hmem x (List.mem_cons_of_mem a hx)) hch

theorem no_nl_joinSep : ∀ (vs : List (List Char)), (∀ v ∈ vs, '\n' ∉ v) →
    '\n' ∉ joinSep vs := by
  intro vs h
  induction vs with
  | nil => simp [joinSep]
  | cons v tail ih =>
    cases tail with
    | nil => simpa [joinSep] using h v (List.mem_cons_self v [])
    | cons w rest =>
      show '\n' ∉ v ++ commaChars ++ joinSep (w :: rest)
      intro hmem
      rcases List.mem_append.mp hmem with hmem2 | hmem2
      · rcases List.mem_append.mp hmem2 with hmem3 | hmem3
        · exact h v (List.mem_cons_self v _) hmem3
        · simp [commaChars] at hmem3
      · exact ih (fun x hx => h x (List.mem_cons_of_mem v hx)) hmem2

theorem comma_mem_joinSep (v w : List Char) (rest : List (List Char)) :
    ',' ∈ joinSep (v :: w :: rest) := by
  show ',' ∈ v ++ commaChars ++ joinSep (w :: rest)
  refine List.mem_append.mpr (Or.inl (List.mem_append.mpr (Or.inr ?_)))
  simp [commaChars]

theorem ne_sentinel_of_comma {l : List Char} (h : ',' ∈ l) :
    (l == sentinelChars) = false := by
  rw [beq_eq_false_iff_ne]
  intro he
  subst he
  revert h
  decide

theorem encodeLines_split (sq : Q → Q) (f : Q) (path : Path) (points : List SampledPoint) :
    encodeLines sq f path points
      = (points.map (sampledLine f) ++ (ghostLine sq f points).toList)
        ++ sentinelChars :: twoHundredChars :: fmtQ path.speedLimit.toValue ::
           twoHundredChars :: path.splines.filterMap (controlLine f) := by
  unfold encodeLines
  simp [List.append_assoc]

theorem no_nl_renderChunks (vs : List (Q × Q)) :
    '\n' ∉ joinSep ((vs.map (fun p => [fmtQ p.1, fmtQ p.2])).flatten) := by
  refine no_nl_joinSep _ ?_
  intro v hv
  rcases List.mem_flatten.mp hv with ⟨chunk, hchunk, hvc⟩
  rcases List.mem_map.mp hchunk with ⟨p, _, rfl⟩
  simp only [List.mem_cons, List.not_mem_nil, or_false] at hvc
  rcases hvc with rfl | rfl <;> exact fmtQ_no_nl _

theorem sampledLine_no_nl (f : Q) (p : SampledPoint) : '\n' ∉ sampledLine f p := by
  refine no_nl_joinSep _ ?_
  intro v hv
  simp only [List.mem_cons, List.not_mem_nil, or_false] at hv
  rcases hv with rfl | rfl | rfl <;> exact fmtQ_no_nl _

theorem sampledLine_comma (f : Q) (p : SampledPoint) : ',' ∈ sampledLine f p :=
  comma_mem_joinSep _ _ _

theorem ghostLine_no_nl {sq : Q → Q} {f : Q} {points : List SampledPoint} {l : List Char}
    (h : ghostLine sq f points = some l) : '\n' ∉ l := by
  unfold ghostLine at h
  cases hg : ghostPoint sq f points with
  | none => rw [hg] at h; exact absurd h (by simp)
  | some g =>
    rw [hg, Option.map_some'] at h
    obtain rfl := (Option.some.inj h).symm
    refine no_nl_joinSep _ ?_
    intro v hv
    simp only [List.mem_cons, List.not_mem_nil, or_false] at hv
    rcases hv with rfl | rfl | rfl
    · exact fmtQ_no_nl _
    · exact fmtQ_no_nl _
    · decide

theorem ghostLine_comma {sq : Q → Q} {f : Q} {points : List SampledPoint} {l : List Char}
    (h : ghostLine sq f points = some l) : ',' ∈ l := by
  unfold ghostLine at h
  cases hg : ghostPoint sq f points with
  | none => rw [hg] at h; exact absurd h (by simp)
  | some g =>
    rw [hg, Option.map_some'] at h
    obtain rfl := (Option.some.inj h).symm
    exact comma_mem_joinSep _ _ _

/-- The roundtrip core: decoding an encoded path file recovers exactly one
path per encode (when the path has splines), whose splines are the re-parsed,
3-decimal-converted images of the original splines. -/
theorem decode_encode_aux (sq : Q → Q) (f : Q) (path : Path) (points : List SampledPoint)
    (json : List Char) (hjson : '\n' ∉ json)
    (hshape : ∀ s ∈ path.splines, goodShapeB s = true)
    (hcont : chainB path.splines = true) :
    recoverPathFileData (String.mk (unlines (encodeLines sq f path points)
        (metaPrefixChars ++ json)))
      = .ok (decodedPaths
          ⟨(path.speedLimit.toValue.num * 1000).fdiv path.speedLimit.toValue.den, 1000⟩
          (path.splines.map (reSpline f))) := by
  have hC : path.splines.filterMap (controlLine f) = path.splines.map (renderLine f) :=
    filterMap_controlLine f path.splines hshape
  have hmeta : '\n' ∉ metaPrefixChars ++ json := by
    intro hm
    rcases List.mem_append.mp hm with h | h
    · revert h; decide
    · exact hjson h
  have hA : ∀ a ∈ points.map (sampledLine f) ++ (ghostLine sq f points).toList,
      (a == sentinelChars) = false := by
    intro a ha
    rcases List.mem_append.mp ha with h | h
    · rcases List.mem_map.mp h with ⟨p, _, rfl⟩
      exact ne_sentinel_of_comma (sampledLine_comma f p)
    · rcases Option.mem_toList.mp h with h2
      exact ne_sentinel_of_comma (ghostLine_comma h2)
  have hAnl : ∀ a ∈ points.map (sampledLine f) ++ (ghostLine sq f points).toList,
      '\n' ∉ a := by
    intro a ha
    rcases List.mem_append.mp ha with h | h
    · rcases List.mem_map.mp h with ⟨p, _, rfl⟩
      exact sampledLine_no_nl f p
    · exact ghostLine_no_nl (Option.mem_toList.mp h)
  have h_ennl : ∀ l ∈ encodeLines sq f path points, '\n' ∉ l := by
    intro l hl
    rw [encodeLines_split, hC] at hl
    rcases List.mem_append.mp hl with h | h
    · exact hAnl l h
    · simp only [List.mem_cons] at h
      rcases h with rfl | rfl | rfl | rfl | h
      · decide
      · decide
      · exact fmtQ_no_nl _
      · decide
      · rcases List.mem_map.mp h with ⟨s, _, rfl⟩
        exact no_nl_renderChunks _
  have hlines : splitLines (String.mk (unlines (encodeLines sq f path points)
      (metaPrefixChars ++ json))).toList
      = encodeLines sq f path points ++ [metaPrefixChars ++ json] := by
    show splitLines (unlines (encodeLines sq f path points) (metaPrefixChars ++ json)) = _
    exact splitLines_unlines h_ennl hmeta
  -- abbreviations
  have hfind : (((points.map (sampledLine f) ++ (ghostLine sq f points).toList)
        ++ sentinelChars :: twoHundredChars :: fmtQ path.speedLimit.toValue ::
           twoHundredChars :: path.splines.map (renderLine f))
        ++ [metaPrefixChars ++ json]).findIdx? (fun l => l == sentinelChars)
      = some (points.map (sampledLine f) ++ (ghostLine sq f points).toList).length := by
    rw [List.append_assoc, List.cons_append]
    have := findIdx_sentinel
      (B := (twoHundredChars :: fmtQ path.speedLimit.toValue :: twoHundredChars ::
        path.splines.map (renderLine f)) ++ [metaPrefixChars ++ json]) hA 0
    simpa using this
  have hget : ((((points.map (sampledLine f) ++ (ghostLine sq f points).toList)
        ++ sentinelChars :: twoHundredChars :: fmtQ path.speedLimit.toValue ::
           twoHundredChars :: path.splines.map (renderLine f))
        ++ [metaPrefixChars ++ json]).get?
          ((points.map (sampledLine f) ++ (ghostLine sq f points).toList).length + 2)).bind
        jsNumber
      = some ⟨(path.speedLimit.toValue.num * 1000).fdiv path.speedLimit.toValue.den,
          1000⟩ := by
    rw [List.append_assoc, List.cons_append,
      List.get?_append_right (by omega),
      show (points.map (sampledLine f) ++ (ghostLine sq f points).toList).length + 2
          - (points.map (sampledLine f) ++ (ghostLine sq f points).toList).length = 2
        by omega]
    show jsNumber (fmtQ path.speedLimit.toValue) = _
    exact jsNumber_fmtQ_any _
  have htd : ((((points.map (sampledLine f) ++ (ghostLine sq f points).toList)
        ++ sentinelChars :: twoHundredChars :: fmtQ path.speedLimit.toValue ::
           twoHundredChars :: path.splines.map (renderLine f))
        ++ [metaPrefixChars ++ json]).take
          ((((points.map (sampledLine f) ++ (ghostLine sq f points).toList)
            ++ sentinelChars :: twoHundredChars :: fmtQ path.speedLimit.toValue ::
               twoHundredChars :: path.splines.map (renderLine f))
            ++ [metaPrefixChars ++ json]).length - 1)).drop
        ((points.map (sampledLine f) ++ (ghostLine sq f points).toList).length + 4)
      = path.splines.map (renderLine f) := by
    rw [List.take_left' (by
      simp only [List.length_append, List.length_cons, List.length_nil]; omega)]
    rw [show (points.map (sampledLine f) ++ (ghostLine sq f points).toList)
          ++ sentinelChars :: twoHundredChars :: fmtQ path.speedLimit.toValue ::
             twoHundredChars :: path.splines.map (renderLine f)
        = ((points.map (sampledLine f) ++ (ghostLine sq f points).toList)
            ++ [sentinelChars, twoHundredChars, fmtQ path.speedLimit.toValue,
                twoHundredChars]) ++ path.splines.map (renderLine f) by simp]
    exact List.drop_left' (by
      simp only [List.length_append, List.length_cons, List.length_nil, List.length_map]
      try omega)
  rw [recover_eq]
  simp only [hlines]
  rw [encodeLines_split, hC]
  simp only [hfind, hget, htd]
  exact decodeLoop_ok_nil (mapM_parse_renders f path.splines hshape)
    (chainStart_map f path.splines hshape hcont)

theorem round3_val_close {a : Q} (hd : 0 < a.den) :
    |(round3 a).val - a.val| ≤ 1 / 1000 := by
  have hmul : (a.mul (Q.ofInt 1000)).den = a.den := by
    simp [Q.mul, Q.ofInt]
  have hmd : 0 < (a.mul (Q.ofInt 1000)).den := by rw [hmul]; exact hd
  have hb := roundHalfAZ_bound hmd
  have hval : (a.mul (Q.ofInt 1000)).val = 1000 * a.val := by
    unfold Q.val Q.mul Q.ofInt
    push_cast
    field_simp
    ring
  rw [hval] at hb
  have hrv : (round3 a).val = (Q.roundHalfAZ (a.mul (Q.ofInt 1000)) : ℚ) / 1000 := by
    unfold round3 Q.val
    norm_num
  rw [hrv]
  set k := (Q.roundHalfAZ (a.mul (Q.ofInt 1000)) : ℚ) with hkdef
  have : |k / 1000 - a.val| = |k - 1000 * a.val| / 1000 := by
    rw [← abs_of_pos (show (0:ℚ) < 1000 by norm_num), ← abs_div]
    congr 1
    field_simp
  rw [this]
  rw [div_le_div_iff (by norm_num) (by norm_num)]
  calc |k - 1000 * a.val| * 1000 ≤ (1/2) * 1000 := by
        exact mul_le_mul_of_nonneg_right hb (by norm_num)
      _ ≤ 1 * 1000 := by norm_num

theorem fromAtoB_one_close {x : Q} (hd : 0 < x.den) :
    |(fromAtoB ⟨1, 1⟩ x).val - x.val| ≤ 1 / 1000 := by
  have hden : (x.mul ⟨1, 1⟩).den = x.den := by simp [Q.mul]
  have hval : (x.mul ⟨1, 1⟩).val = x.val := by
    unfold Q.val Q.mul
    norm_num
  have h := round3_val_close (a := x.mul ⟨1, 1⟩) (by rw [hden]; exact hd)
  rw [hval] at h
  exact h

theorem fixPrecision_close {x : Q} (hd : 0 < x.den) :
    |(fixPrecision x).val - x.val| ≤ 1 / 1000 :=
  round3_val_close hd

/-- C1: for every path of continuity-valid (2- or 4-control) splines, encoding
with the identity unit factor (inches) succeeds and decoding the produced text
yields exactly one path with the same number of splines; and on every sampled
data line the emitted values `(x, y, speed)` are within `0.001` of the
pre-encoding sample values. -/
theorem C1_encode_decode_roundtrip (sq : Q → Q) (path : Path)
    (points : List SampledPoint) (json : List Char)
    (hjson : '\n' ∉ json)
    (hne : path.splines ≠ [])
    (hshape : ∀ s ∈ path.splines, goodShapeB s = true)
    (hcont : chainB path.splines = true)
    (hpts : ∀ pt ∈ points, 0 < pt.x.den ∧ 0 < pt.y.den ∧ 0 < pt.speed.den) :
    ∃ out, exportPathFile sq ⟨1, 1⟩ (some path) points json = .ok out ∧
      ∃ p, recoverPathFileData out = .ok [p] ∧
        p.splines.length = path.splines.length ∧
        ∀ pt ∈ points,
          |(sampledLineValues ⟨1, 1⟩ pt).1.val - pt.x.val| ≤ 1 / 1000 ∧
          |(sampledLineValues ⟨1, 1⟩ pt).2.1.val - pt.y.val| ≤ 1 / 1000 ∧
          |(sampledLineValues ⟨1, 1⟩ pt).2.2.val - pt.speed.val| ≤ 1 / 1000 := by
  refine ⟨String.mk (unlines (encodeLines sq ⟨1, 1⟩ path points)
    (metaPrefixChars ++ json)), ?_, ?_⟩
  · show (if path.splines.isEmpty then Except.error EncodeError.noSplineToExport
      else .ok (String.mk (unlines (encodeLines sq ⟨1, 1⟩ path points)
        (metaPrefixChars ++ json)))) = _
    rw [if_neg (by simp only [List.isEmpty_iff]; exact hne)]
  · refine ⟨⟨speedLimitFor
        ⟨(path.speedLimit.toValue.num * 1000).fdiv path.speedLimit.toValue.den, 1000⟩,
        path.splines.map (reSpline ⟨1, 1⟩)⟩, ?_, ?_, ?_⟩
    · rw [decode_encode_aux sq ⟨1, 1⟩ path points json hjson hshape hcont]
      obtain ⟨a, l, hsp⟩ : ∃ a l, path.splines = a :: l := by
        cases h : path.splines with
        | nil => exact absurd h hne
        | cons a l => exact ⟨a, l, rfl⟩
      rw [hsp]
      rfl
    · simp
    · intro pt hpt
      obtain ⟨hx, hy, hs⟩ := hpts pt hpt
      exact ⟨fromAtoB_one_close hx, fromAtoB_one_close hy, fixPrecision_close hs⟩

/-- A concrete straight 2-control path from `(0,0)` to `(10,0)` with two
sampled points: the roundtrip theorem applies, every hypothesis holding by
computation. -/
theorem C1_encode_decode_roundtrip_witness :
    ('\n' ∉ (['x'] : List Char)) ∧
    (Path.mk defaultSpeedLimit
        [⟨⟨⟨⟨0, 1⟩, ⟨0, 1⟩⟩, ⟨0, 1⟩⟩, [], ⟨⟨⟨10, 1⟩, ⟨0, 1⟩⟩, ⟨0, 1⟩⟩⟩]).splines ≠ [] ∧
    (∃ out, exportPathFile (fun _ => ⟨10, 1⟩) ⟨1, 1⟩
        (some (Path.mk defaultSpeedLimit
          [⟨⟨⟨⟨0, 1⟩, ⟨0, 1⟩⟩, ⟨0, 1⟩⟩, [], ⟨⟨⟨10, 1⟩, ⟨0, 1⟩⟩, ⟨0, 1⟩⟩⟩]))
        [⟨⟨0, 1⟩, ⟨0, 1⟩, ⟨50, 1⟩⟩, ⟨⟨10, 1⟩, ⟨0, 1⟩, ⟨60, 1⟩⟩] ['x'] = .ok out ∧
      ∃ p, recoverPathFileData out = .ok [p] ∧
        p.splines.length = (Path.mk defaultSpeedLimit
          [⟨⟨⟨⟨0, 1⟩, ⟨0, 1⟩⟩, ⟨0, 1⟩⟩, [], ⟨⟨⟨10, 1⟩, ⟨0, 1⟩⟩, ⟨0, 1⟩⟩⟩]).splines.length ∧
        ∀ pt ∈ ([⟨⟨0, 1⟩, ⟨0, 1⟩, ⟨50, 1⟩⟩,
            ⟨⟨10, 1⟩, ⟨0, 1⟩, ⟨60, 1⟩⟩] : List SampledPoint),
          |(sampledLineValues ⟨1, 1⟩ pt).1.val - pt.x.val| ≤ 1 / 1000 ∧
          |(sampledLineValues ⟨1, 1⟩ pt).2.1.val - pt.y.val| ≤ 1 / 1000 ∧
          |(sampledLineValues ⟨1, 1⟩ pt).2.2.val - pt.speed.val| ≤ 1 / 1000) :=
  ⟨by decide, by decide,
    C1_encode_decode_roundtrip (fun _ => ⟨10, 1⟩)
      (Path.mk defaultSpeedLimit
        [⟨⟨⟨⟨0, 1⟩, ⟨0, 1⟩⟩, ⟨0, 1⟩⟩, [], ⟨⟨⟨10, 1⟩, ⟨0, 1⟩⟩, ⟨0, 1⟩⟩⟩])
      [⟨⟨0, 1⟩, ⟨0, 1⟩, ⟨50, 1⟩⟩, ⟨⟨10, 1⟩, ⟨0, 1⟩, ⟨60, 1⟩⟩] ['x']
      (by decide) (by decide) (by decide) (by decide) (by decide)⟩

end LemLibV04
